import Mathlib

/-!
Verification of the computational core of the Poisson surface reconstruction
engine (sources: Src/Array.inl, Src/SparseMatrix.inl, Src/Vector.inl,
Src/MultiGridOctreeData.inl).  All machine real numbers (`Real` = float in the
source) are modelled by exact rationals `ℚ`; fallible operations (IEEE 0/0)
return `Option`.  Vectors are modelled as functions `ℕ → ℚ` together with an
explicit dimension, and in-place array writes are modelled with the pointwise
update `upd`.
-/

namespace PoissonRecon

/-- Pointwise update of a function-modelled array: `upd f i v` writes `v` at
index `i` and leaves every other index unchanged. -/
def upd (f : ℕ → ℚ) (i : ℕ) (v : ℚ) : ℕ → ℚ :=
  fun j => if j = i then v else f j

theorem upd_same (f : ℕ → ℚ) (i : ℕ) (v : ℚ) : upd f i v i = v := by
  simp [upd]

theorem upd_other (f : ℕ → ℚ) (i : ℕ) (v : ℚ) (j : ℕ) (h : j ≠ i) :
    upd f i v j = f j := by
  simp [upd, h]

/-! ### Sparse symmetric matrices (Src/SparseMatrix.inl)

`SparseSymmetricMatrix<T>` stores, for each row `i`, a list of entries
`(N, Value)`; each stored entry acts symmetrically: it contributes
`Value * v[N]` to output slot `i` and `Value * v[i]` to output slot `N`. -/

/-- One stored matrix entry: column index `N` and coefficient `val`
(`MatrixEntry<T>` in the source). -/
structure MatrixEntry where
  N : ℕ
  val : ℚ
deriving DecidableEq, Repr

/-- A sparse symmetric matrix: the list of rows, each row a list of entries
(`m_ppElements` together with `rowSizes_`). -/
def SparseSym := List (List MatrixEntry)

/-- Number of rows (`Rows()`). -/
def SparseSym.rows (m : SparseSym) : ℕ := m.length

/-- One step of the inner loop of `SparseSymmetricMatrix::operator*`:
`R[i] += e.Value * V[e.N]; R[e.N] += e.Value * V[i];` executed sequentially. -/
def entStep (v : ℕ → ℚ) (i : ℕ) (out : ℕ → ℚ) (e : MatrixEntry) : ℕ → ℚ :=
  let o1 := upd out i (out i + e.val * v e.N)
  upd o1 e.N (o1 e.N + e.val * v i)

/-- Apply row `i` of the matrix to the accumulator, as the inner loop of
`operator*` does. -/
def applyRow (v : ℕ → ℚ) (i : ℕ) (out : ℕ → ℚ) (row : List MatrixEntry) :
    ℕ → ℚ :=
  row.foldl (entStep v i) out

/-- Embedding of `SparseSymmetricMatrix::operator*` (sequential reference
product): starts from the zero vector `R(Rows())` and applies every row in
order. -/
def opStar (m : SparseSym) (v : ℕ → ℚ) : ℕ → ℚ :=
  m.enum.foldl (fun out p => applyRow v p.1 out p.2) (fun _ => 0)

/-- The total symmetric contribution of row `i` with entry list `row` to
output slot `j` (the mathematical reading of one row of `operator*` /
`Multiply`). -/
def rowDelta (v : ℕ → ℚ) (i : ℕ) (row : List MatrixEntry) (j : ℕ) : ℚ :=
  (if j = i then (row.map (fun e => e.val * v e.N)).sum else 0) +
    (row.map (fun e => if j = e.N then e.val * v i else 0)).sum

theorem entStep_val (v : ℕ → ℚ) (i : ℕ) (out : ℕ → ℚ) (e : MatrixEntry)
    (j : ℕ) :
    entStep v i out e j =
      out j + (if j = i then e.val * v e.N else 0) +
        (if j = e.N then e.val * v i else 0) := by
  simp only [entStep, upd]
  split_ifs with h1 h2 h3
  all_goals subst_vars
  all_goals try ring
  all_goals exfalso
  all_goals omega

theorem applyRow_val (v : ℕ → ℚ) (i : ℕ) (row : List MatrixEntry)
    (out : ℕ → ℚ) (j : ℕ) :
    applyRow v i out row j = out j + rowDelta v i row j := by
  induction row generalizing out with
  | nil => simp [applyRow, rowDelta]
  | cons e rest ih =>
    simp only [applyRow, List.foldl_cons] at *
    rw [ih, entStep_val, rowDelta, rowDelta]
    simp only [List.map_cons, List.sum_cons]
    by_cases hi : j = i <;> simp [hi] <;> ring

theorem foldRows_val (v : ℕ → ℚ) (l : List (ℕ × List MatrixEntry))
    (out : ℕ → ℚ) (j : ℕ) :
    (l.foldl (fun out p => applyRow v p.1 out p.2) out) j
      = out j + (l.map (fun p => rowDelta v p.1 p.2 j)).sum := by
  induction l generalizing out with
  | nil => simp
  | cons p rest ih =>
    simp only [List.foldl_cons, List.map_cons, List.sum_cons]
    rw [ih, applyRow_val]
    ring

theorem opStar_val (m : SparseSym) (v : ℕ → ℚ) (j : ℕ) :
    opStar m v j = (m.enum.map (fun p => rowDelta v p.1 p.2 j)).sum := by
  rw [opStar, foldRows_val]
  exact zero_add _

/-- One step of the entry loop of the `addDCTerm == false` branch of
`SparseSymmetricMatrix::Multiply`: the running scalar `acc` collects
`e.Value * in[e.N]` while the scratch vector receives `e.Value * in[i]` at
slot `e.N`. -/
def accStep (v : ℕ → ℚ) (i : ℕ) (st : ℚ × (ℕ → ℚ)) (e : MatrixEntry) :
    ℚ × (ℕ → ℚ) :=
  (st.1 + e.val * v e.N, upd st.2 e.N (st.2 e.N + e.val * v i))

/-- The whole per-row body of the `addDCTerm == false` branch of `Multiply`:
run the entry loop, then `outs[i] += acc`. -/
def rowStepNoDC (v : ℕ → ℚ) (i : ℕ) (outs : ℕ → ℚ)
    (row : List MatrixEntry) : ℕ → ℚ :=
  let st := row.foldl (accStep v i) (0, outs)
  upd st.2 i (st.2 i + st.1)

theorem accFold_fst (v : ℕ → ℚ) (i : ℕ) (row : List MatrixEntry)
    (st : ℚ × (ℕ → ℚ)) :
    (row.foldl (accStep v i) st).1
      = st.1 + (row.map (fun e => e.val * v e.N)).sum := by
  induction row generalizing st with
  | nil => simp
  | cons e rest ih =>
    simp only [List.foldl_cons, List.map_cons, List.sum_cons]
    rw [ih]
    simp [accStep]
    ring

theorem accFold_snd (v : ℕ → ℚ) (i : ℕ) (row : List MatrixEntry)
    (st : ℚ × (ℕ → ℚ)) (j : ℕ) :
    (row.foldl (accStep v i) st).2 j
      = st.2 j + (row.map (fun e => if j = e.N then e.val * v i else 0)).sum := by
  induction row generalizing st with
  | nil => simp
  | cons e rest ih =>
    simp only [List.foldl_cons, List.map_cons, List.sum_cons]
    rw [ih]
    by_cases h : j = e.N
    · subst h
      simp [accStep, upd]
      ring
    · simp [accStep, upd_other _ _ _ _ h, h]

theorem rowStepNoDC_val (v : ℕ → ℚ) (i : ℕ) (outs : ℕ → ℚ)
    (row : List MatrixEntry) (j : ℕ) :
    rowStepNoDC v i outs row j = outs j + rowDelta v i row j := by
  rw [rowStepNoDC, rowDelta]
  by_cases h : j = i
  · subst h
    rw [upd_same, accFold_snd, accFold_fst]
    simp
    ring
  · rw [upd_other _ _ _ _ h, accFold_snd]
    simp [h]

/-- Embedding of `SparseSymmetricMatrix::Multiply(in, out, addDCTerm,
threads)`.  Each row `i` is processed by the thread `tid i` (the OpenMP
static schedule is one such assignment) into that thread's scratch vector;
afterwards `out[j]` is the DC term (zero when `addDCTerm` is false) plus the
sum of all scratch vectors at `j`. -/
def multiplyEmbed (m : SparseSym) (v : ℕ → ℚ) (addDCTerm : Bool)
    (threads : ℕ) (tid : ℕ → ℕ) (outDim : ℕ) : ℕ → ℚ :=
  let scratch : ℕ → ℕ → ℚ :=
    m.enum.foldl
      (fun s p => fun t =>
        if t = tid p.1 then
          (if addDCTerm then applyRow v p.1 (s t) p.2
           else rowStepNoDC v p.1 (s t) p.2)
        else s t)
      (fun _ _ => 0)
  let dcTerm : ℚ :=
    if addDCTerm then ((List.range m.rows).map v).sum / (outDim : ℚ) else 0
  fun j => (List.range threads).foldl (fun a t => a + scratch t j) dcTerm

theorem scratchFold_val (v : ℕ → ℚ) (addDC : Bool) (tid : ℕ → ℕ)
    (l : List (ℕ × List MatrixEntry)) (s : ℕ → ℕ → ℚ) (t : ℕ) (j : ℕ) :
    (l.foldl
        (fun s p => fun t =>
          if t = tid p.1 then
            (if addDC then applyRow v p.1 (s t) p.2
             else rowStepNoDC v p.1 (s t) p.2)
          else s t) s) t j
      = s t j +
        ((l.filter (fun p => tid p.1 = t)).map
          (fun p => rowDelta v p.1 p.2 j)).sum := by
  induction l generalizing s with
  | nil => simp
  | cons p rest ih =>
    simp only [List.foldl_cons]
    rw [ih]
    by_cases h : tid p.1 = t
    · subst h
      rw [List.filter_cons_of_pos (by simp), List.map_cons, List.sum_cons]
      show (if tid p.1 = tid p.1 then
          (if addDC then applyRow v p.1 (s (tid p.1)) p.2
           else rowStepNoDC v p.1 (s (tid p.1)) p.2)
        else s (tid p.1)) j + _ = _
      rw [if_pos rfl]
      cases addDC
      · rw [if_neg (by simp), rowStepNoDC_val]
        ring
      · rw [if_pos rfl, applyRow_val]
        ring
    · rw [List.filter_cons_of_neg (by simp [h])]
      show (if t = tid p.1 then
          (if addDC then applyRow v p.1 (s t) p.2
           else rowStepNoDC v p.1 (s t) p.2)
        else s t) j + _ = _
      rw [if_neg (fun ht => h ht.symm)]

theorem foldl_add_eq_sum (l : List ℕ) (f : ℕ → ℚ) (a0 : ℚ) :
    l.foldl (fun a t => a + f t) a0 = a0 + (l.map f).sum := by
  induction l generalizing a0 with
  | nil => simp
  | cons t rest ih =>
    simp only [List.foldl_cons, List.map_cons, List.sum_cons]
    rw [ih]
    ring

theorem sum_range_ite (n k : ℕ) (hk : k < n) (x : ℚ) :
    ((List.range n).map (fun t => if k = t then x else 0)).sum = x := by
  induction n with
  | zero => omega
  | succ n ih =>
    rw [List.range_succ]
    by_cases h : k = n
    · subst h
      have hz : ((List.range k).map (fun t => if k = t then x else 0)).sum = 0 := by
        apply List.sum_eq_zero
        intro y hy
        simp only [List.mem_map] at hy
        obtain ⟨t, ht, rfl⟩ := hy
        rw [List.mem_range] at ht
        rw [if_neg (by omega)]
      simp [hz]
    · have hk' : k < n := by omega
      simp [ih hk', h]

theorem sum_partition (l : List (ℕ × List MatrixEntry))
    (g : ℕ × List MatrixEntry → ℚ) (tid : ℕ → ℕ) (threads : ℕ)
    (h : ∀ p ∈ l, tid p.1 < threads) :
    ((List.range threads).map
      (fun t => ((l.filter (fun p => tid p.1 = t)).map g).sum)).sum
      = (l.map g).sum := by
  induction l with
  | nil => simp
  | cons p rest ih =>
    have hrest : ∀ q ∈ rest, tid q.1 < threads := fun q hq => h q (by simp [hq])
    have hp : tid p.1 < threads := h p (by simp)
    have hsplit : ∀ t, (((p :: rest).filter (fun q => tid q.1 = t)).map g).sum
        = (if tid p.1 = t then g p else 0)
          + ((rest.filter (fun q => tid q.1 = t)).map g).sum := by
      intro t
      by_cases hc : tid p.1 = t
      · rw [List.filter_cons_of_pos (by simp [hc]), if_pos hc]
        simp
      · rw [List.filter_cons_of_neg (by simp [hc]), if_neg hc]
        simp
    calc ((List.range threads).map
        (fun t => (((p :: rest).filter (fun q => tid q.1 = t)).map g).sum)).sum
        = ((List.range threads).map
            (fun t => (if tid p.1 = t then g p else 0)
              + ((rest.filter (fun q => tid q.1 = t)).map g).sum)).sum := by
          apply congrArg
          exact List.map_congr_left (fun t _ => hsplit t)
      _ = ((List.range threads).map (fun t => if tid p.1 = t then g p else 0)).sum
            + ((List.range threads).map
                (fun t => ((rest.filter (fun q => tid q.1 = t)).map g).sum)).sum := by
          rw [← List.sum_map_add]
      _ = g p + (rest.map g).sum := by rw [sum_range_ite _ _ hp, ih hrest]
      _ = ((p :: rest).map g).sum := by simp

/-- C9: for every sparse symmetric matrix and vector, the per-thread-scratch
parallel product `Multiply(v, out, addDCTerm=false, threads)` computes, slot
by slot, the same vector as the sequential `operator*(v)`, for every thread
count and every assignment of rows to threads (exact arithmetic). -/
theorem c9_parallel_multiply_equals_sequential (m : SparseSym) (v : ℕ → ℚ)
    (threads : ℕ) (tid : ℕ → ℕ) (outDim : ℕ)
    (htid : ∀ i, i < m.rows → tid i < threads) (j : ℕ) :
    multiplyEmbed m v false threads tid outDim j = opStar m v j := by
  rw [opStar_val]
  simp only [multiplyEmbed]
  rw [foldl_add_eq_sum]
  have hscr : ∀ t, (m.enum.foldl
      (fun s p => fun t =>
        if t = tid p.1 then
          (if false then applyRow v p.1 (s t) p.2
           else rowStepNoDC v p.1 (s t) p.2)
        else s t)
      (fun _ _ => 0)) t j
      = ((m.enum.filter (fun p => tid p.1 = t)).map
          (fun p => rowDelta v p.1 p.2 j)).sum := by
    intro t
    rw [scratchFold_val v false tid m.enum (fun _ _ => 0) t j]
    exact zero_add _
  rw [if_neg (by simp), List.map_congr_left (fun t _ => hscr t), zero_add]
  exact sum_partition m.enum _ tid threads
    (fun p hp => htid p.1 (List.fst_lt_of_mem_enum hp))

/-- Witness for C9 at a concrete 2-row matrix, one thread. -/
theorem c9_witness :
    (∀ i, i < SparseSym.rows [[⟨1, 2⟩], [⟨0, 3⟩, ⟨1, 5⟩]] → (fun _ => 0) i < 1) ∧
      multiplyEmbed [[⟨1, 2⟩], [⟨0, 3⟩, ⟨1, 5⟩]] (fun i => (i : ℚ) + 1) false 1
          (fun _ => 0) 2 0
        = opStar [[⟨1, 2⟩], [⟨0, 3⟩, ⟨1, 5⟩]] (fun i => (i : ℚ) + 1) 0 :=
  ⟨fun _ _ => Nat.one_pos,
    c9_parallel_multiply_equals_sequential [[⟨1, 2⟩], [⟨0, 3⟩, ⟨1, 5⟩]]
      (fun i => (i : ℚ) + 1) 1 (fun _ => 0) 2 (fun _ _ => Nat.one_pos) 0⟩

/-! ### Conjugate gradient (`SparseSymmetricMatrix::Solve`)

`Solve(A, b, iters, x, eps, reset, threads, addDCTerm)` squares `eps` on
entry, computes the initial residual `r = b - A x` and its squared norm
`delta_new`, warns and returns `0` when `delta_new < eps`, and otherwise
iterates while `ii != iters && delta_new > eps * delta_0`.  Machine reals are
modelled by `ℚ`; `Multiply` is taken with one thread (`c9` proves the result
is the same for every thread count). -/

/-- Sum of `f i` for `i < dim` (the OpenMP reduction loops). -/
def sumRange (dim : ℕ) (f : ℕ → ℚ) : ℚ := ((List.range dim).map f).sum

/-- The matrix-vector product used inside `Solve`: `A.Multiply(v, out,
addDCTerm, threads)`, taken at one thread. -/
def mulMV (m : SparseSym) (addDC : Bool) (dim : ℕ) (v : ℕ → ℚ) : ℕ → ℚ :=
  multiplyEmbed m v addDC 1 (fun _ => 0) dim

/-- State of the conjugate-gradient loop: iterate `x`, residual `r`, search
direction `d`, and `delta` = the current `delta_new` = Σ r_i². -/
structure CGState where
  x : ℕ → ℚ
  r : ℕ → ℚ
  d : ℕ → ℚ
  delta : ℚ

/-- Initialization of `Solve` before the loop: optional reset of `x`,
`r = d = b - A x`, `delta_new = Σ r²` over the `dim` rows. -/
def cgInit (m : SparseSym) (b x0 : ℕ → ℚ) (addDC : Bool) (dim : ℕ)
    (reset : Bool) : CGState :=
  let x := if reset then (fun _ => 0) else x0
  let ax := mulMV m addDC dim x
  let r := fun i => b i - ax i
  ⟨x, r, r, sumRange dim (fun i => r i * r i)⟩

/-- One iteration of the loop body of `Solve` at loop counter `ii`
(including the `ii % 50 == 49` residual-recomputation branch with its double
`x += d * alpha` update, exactly as in the source). -/
def cgStep (m : SparseSym) (addDC : Bool) (dim : ℕ) (b : ℕ → ℚ) (ii : ℕ)
    (s : CGState) : CGState :=
  let q := mulMV m addDC dim s.d
  let dDotQ := sumRange dim (fun i => s.d i * q i)
  let alpha := s.delta / dDotQ
  if ii % 50 = 49 then
    let x1 := fun i => s.x i + s.d i * alpha
    let ax := mulMV m addDC dim x1
    let r1 := fun i => b i - ax i
    let delta1 := sumRange dim (fun i => r1 i * r1 i)
    let x2 := fun i => x1 i + s.d i * alpha
    ⟨x2, r1, fun i => r1 i + s.d i * (delta1 / s.delta), delta1⟩
  else
    let r1 := fun i => s.r i - q i * alpha
    let delta1 := sumRange dim (fun i => r1 i * r1 i)
    ⟨fun i => s.x i + s.d i * alpha, r1,
      fun i => r1 i + s.d i * (delta1 / s.delta), delta1⟩

/-- The sequence of CG states: `cgStates s0 k` is the state after `k`
executions of the loop body. -/
def cgStates (m : SparseSym) (addDC : Bool) (dim : ℕ) (b : ℕ → ℚ)
    (s0 : CGState) : ℕ → CGState
  | 0 => s0
  | k + 1 => cgStep m addDC dim b k (cgStates m addDC dim b s0 k)

/-- The loop `for(ii = 0; ii != iters && delta_new > eps * delta_0; ++ii)`,
with `thr = eps * delta_0` (where `eps` has already been squared) and
`fuel = iters - ii`. -/
def cgLoop (m : SparseSym) (addDC : Bool) (dim : ℕ) (b : ℕ → ℚ) (thr : ℚ) :
    ℕ → ℕ → CGState → ℕ × CGState
  | 0, ii, s => (ii, s)
  | fuel + 1, ii, s =>
    if s.delta ≤ thr then (ii, s)
    else cgLoop m addDC dim b thr fuel (ii + 1) (cgStep m addDC dim b ii s)

/-- Result of `Solve`: the returned iteration count, the final iterate, and
whether the initial-residual warning was printed. -/
structure SolveResult where
  iters : ℕ
  x : ℕ → ℚ
  warned : Bool

/-- Embedding of `SparseSymmetricMatrix::Solve`. -/
def solveEmbed (m : SparseSym) (b : ℕ → ℚ) (dim : ℕ) (iters : ℕ)
    (x0 : ℕ → ℚ) (eps : ℚ) (reset : Bool) (addDC : Bool) : SolveResult :=
  let epsSq := eps * eps
  let s0 := cgInit m b x0 addDC dim reset
  if s0.delta < epsSq then ⟨0, s0.x, true⟩
  else
    let p := cgLoop m addDC dim b (epsSq * s0.delta) iters 0 s0
    ⟨p.1, p.2.x, false⟩

/-- Downward search for the integer cube root: `cbrtGo n m` is the largest
`k < m` with `k³ ≤ n` (and `0` if there is none). -/
def cbrtGo (n : ℕ) : ℕ → ℕ
  | 0 => 0
  | k + 1 => if k * k * k ≤ n then k else cbrtGo n k

/-- Exact-arithmetic model of `(int)std::pow(n, ITERATION_POWER)` with
`ITERATION_POWER = 1.0/3`: the floor of the real cube root of `n`. -/
def natCbrt (n : ℕ) : ℕ := cbrtGo n (n + 1)

/-- The ceiling of the real cube root of `n` (the bound named by the claim),
computed from the floor. -/
def ceilCbrt (n : ℕ) : ℕ :=
  if natCbrt n * natCbrt n * natCbrt n = n then natCbrt n else natCbrt n + 1

theorem cbrtGo_le (n m k : ℕ) (hk : k < m) (h : k * k * k ≤ n) :
    k ≤ cbrtGo n m := by
  induction m with
  | zero => omega
  | succ m ih =>
    rw [cbrtGo]
    by_cases hm : m * m * m ≤ n
    · rw [if_pos hm]
      omega
    · rw [if_neg hm]
      have : k ≠ m := fun he => hm (he ▸ h)
      exact ih (by omega)

theorem cbrtGo_cube_le (n m : ℕ) : cbrtGo n m * cbrtGo n m * cbrtGo n m ≤ n := by
  induction m with
  | zero => simp [cbrtGo]
  | succ m ih =>
    rw [cbrtGo]
    by_cases hm : m * m * m ≤ n
    · rwa [if_pos hm]
    · rwa [if_neg hm]

theorem self_le_cube (k : ℕ) : k ≤ k * k * k := by
  rcases Nat.eq_zero_or_pos k with h | h
  · simp [h]
  · calc k = 1 * 1 * k := by ring
      _ ≤ k * k * k := Nat.mul_le_mul (Nat.mul_le_mul h h) (le_refl k)

theorem natCbrt_ge (n k : ℕ) (h : k * k * k ≤ n) : k ≤ natCbrt n := by
  have hkn : k ≤ n := le_trans (self_le_cube k) h
  exact cbrtGo_le n (n + 1) k (by omega) h

theorem natCbrt_le_ceilCbrt (n : ℕ) : natCbrt n ≤ ceilCbrt n := by
  rw [ceilCbrt]
  split_ifs <;> omega

theorem ceilCbrt_spec (n : ℕ) :
    n ≤ ceilCbrt n * ceilCbrt n * ceilCbrt n ∧
      ∀ k, n ≤ k * k * k → ceilCbrt n ≤ k := by
  constructor
  · rw [ceilCbrt]
    split_ifs with h
    · omega
    · have hflr : natCbrt n * natCbrt n * natCbrt n ≤ n := cbrtGo_cube_le n (n + 1)
      by_contra hc
      push_neg at hc
      have : natCbrt n + 1 ≤ natCbrt n :=
        natCbrt_ge n (natCbrt n + 1) (by omega)
      omega
  · intro k hk
    rw [ceilCbrt]
    have hflr : natCbrt n * natCbrt n * natCbrt n ≤ n := cbrtGo_cube_le n (n + 1)
    split_ifs with h
    · by_contra hc
      push_neg at hc
      have h3 : k ^ 3 < natCbrt n ^ 3 :=
        Nat.pow_lt_pow_left hc (by norm_num)
      have hkk : k * k * k = k ^ 3 := by ring
      have hff : natCbrt n * natCbrt n * natCbrt n = natCbrt n ^ 3 := by ring
      omega
    · by_contra hc
      push_neg at hc
      have hkle : k ≤ natCbrt n := by omega
      have h3 : k ^ 3 ≤ natCbrt n ^ 3 := Nat.pow_le_pow_left hkle 3
      have hkk : k * k * k = k ^ 3 := by ring
      have hff : natCbrt n * natCbrt n * natCbrt n = natCbrt n ^ 3 := by ring
      omega

/-- The scaled CG tolerance of the whole-depth solve:
`Real _accuracy = (Real)(accuracy / 100000) * M.Rows()`
(src/Src/MultiGridOctreeData.inl, `SolveFixedDepthMatrix`). -/
def scaledAccuracy (accuracy : ℚ) (n : ℕ) : ℚ := accuracy / 100000 * n

/-- The whole-depth CG invocation of `SolveFixedDepthMatrix` with
`fixedIters` unset: iteration budget
`max((int)pow(M.Rows(), 1.0/3), minIters)`, tolerance
`(accuracy/100000)*M.Rows()`, no reset. -/
def solveWholeDepth (m : SparseSym) (b x0 : ℕ → ℚ) (minIters : ℕ)
    (accuracy : ℚ) (addDC : Bool) : SolveResult :=
  solveEmbed m b m.rows (max (natCbrt m.rows) minIters) x0
    (scaledAccuracy accuracy m.rows) false addDC

theorem cgLoop_spec (m : SparseSym) (addDC : Bool) (dim : ℕ) (b : ℕ → ℚ)
    (thr : ℚ) (s0 : CGState) (fuel ii : ℕ) :
    ii ≤ (cgLoop m addDC dim b thr fuel ii (cgStates m addDC dim b s0 ii)).1 ∧
    (cgLoop m addDC dim b thr fuel ii (cgStates m addDC dim b s0 ii)).1 ≤ ii + fuel ∧
    (∀ k, ii ≤ k →
      k < (cgLoop m addDC dim b thr fuel ii (cgStates m addDC dim b s0 ii)).1 →
      thr < (cgStates m addDC dim b s0 k).delta) ∧
    ((cgLoop m addDC dim b thr fuel ii (cgStates m addDC dim b s0 ii)).1 < ii + fuel →
      (cgStates m addDC dim b s0
        (cgLoop m addDC dim b thr fuel ii (cgStates m addDC dim b s0 ii)).1).delta ≤ thr) ∧
    (cgLoop m addDC dim b thr fuel ii (cgStates m addDC dim b s0 ii)).2 =
      cgStates m addDC dim b s0
        (cgLoop m addDC dim b thr fuel ii (cgStates m addDC dim b s0 ii)).1 := by
  induction fuel generalizing ii with
  | zero =>
    rw [cgLoop]
    exact ⟨le_refl ii, by omega, fun k hk hk' => absurd hk (by omega),
      fun h => absurd h (by omega), rfl⟩
  | succ fuel ih =>
    rw [cgLoop]
    by_cases hst : (cgStates m addDC dim b s0 ii).delta ≤ thr
    · rw [if_pos hst]
      exact ⟨le_refl ii, by omega, fun k hk hk' => absurd hk (by omega),
        fun _ => hst, rfl⟩
    · rw [if_neg hst]
      have hstep : cgStep m addDC dim b ii (cgStates m addDC dim b s0 ii)
          = cgStates m addDC dim b s0 (ii + 1) := rfl
      rw [hstep]
      obtain ⟨h1, h2, h3, h4, h5⟩ := ih (ii + 1)
      refine ⟨by omega, by omega, ?_, fun h => h4 (by omega), h5⟩
      intro k hk hk'
      rcases Nat.eq_or_lt_of_le hk with he | hlt
      · rw [he] at hst
        exact lt_of_not_le hst
      · exact h3 k hlt hk'

/-- C8: if the initial squared residual `‖b - A x‖²` is already strictly
below the squared solve tolerance, `Solve` prints the warning and returns
zero iterations, leaving the iterate exactly as it was after the optional
reset. -/
theorem c8_initial_residual_warn_returns_zero (m : SparseSym) (b : ℕ → ℚ)
    (dim iters : ℕ) (x0 : ℕ → ℚ) (eps : ℚ) (reset addDC : Bool)
    (h : (cgInit m b x0 addDC dim reset).delta < eps * eps) :
    solveEmbed m b dim iters x0 eps reset addDC
      = ⟨0, if reset then (fun _ => 0) else x0, true⟩ := by
  rw [solveEmbed, if_pos h]
  rfl

/-- Modelled from the claim's words, for the refutation of C2's termination
rule read literally: with ε the configured accuracy itself, the loop would
stop at the first iteration count k whose squared residual satisfies
`‖r_k‖² ≤ ε·‖r₀‖²`. -/
def specC2Termination (m : SparseSym) (b x0 : ℕ → ℚ) (minIters : ℕ)
    (accuracy : ℚ) (addDC : Bool) : Prop :=
  ∀ k,
    (cgStates m addDC (SparseSym.rows m) b
        (cgInit m b x0 addDC (SparseSym.rows m) false) k).delta
      ≤ accuracy * (cgInit m b x0 addDC (SparseSym.rows m) false).delta →
    (solveWholeDepth m b x0 minIters accuracy addDC).iters ≤ k


/-- Helper: the singleton range. -/
theorem list_range_one : List.range 1 = [0] := rfl

/-- Witness for C8: a 1×1 system whose initial residual is zero. -/
theorem c8_witness :
    (cgInit [[⟨0, 1/2⟩]] (fun _ => 3) (fun _ => 3) false 1 false).delta < 1 * 1 ∧
      solveEmbed [[⟨0, 1/2⟩]] (fun _ => 3) 1 5 (fun _ => 3) 1 false false
        = ⟨0, fun _ => 3, true⟩ :=
  ⟨by norm_num [cgInit, mulMV, multiplyEmbed, sumRange, rowStepNoDC, accStep,
      upd, SparseSym.rows, List.enum, list_range_one],
    c8_initial_residual_warn_returns_zero [[⟨0, 1/2⟩]] (fun _ => 3) 1 5
      (fun _ => 3) 1 false false
      (by norm_num [cgInit, mulMV, multiplyEmbed, sumRange, rowStepNoDC,
        accStep, upd, SparseSym.rows, List.enum, list_range_one])⟩

/-- Counterexample for C2: a 1×1 identity system with configured accuracy 1.
The initial residual already satisfies the claimed stopping rule
(the squared residual is at most ε·δ0 with ε the configured accuracy), yet
the solver still performs one CG iteration, because the loop actually stops
at `((accuracy/100000)·n)²·δ0`. -/
theorem c2_counterexample :
    ¬ specC2Termination [[⟨0, 1/2⟩]] (fun _ => 1) (fun _ => 0) 8 1 false := by
  intro h
  have h0 := h 0 (by
    norm_num [cgStates, cgInit, mulMV, multiplyEmbed, sumRange, rowStepNoDC,
      accStep, upd, SparseSym.rows, List.enum, list_range_one])
  have h1 : (solveWholeDepth [[⟨0, 1/2⟩]] (fun _ => 1) (fun _ => 0) 8 1
      false).iters = 1 := by
    norm_num [solveWholeDepth, solveEmbed, cgInit, cgLoop, cgStep, mulMV,
      multiplyEmbed, sumRange, rowStepNoDC, accStep, upd, scaledAccuracy,
      SparseSym.rows, natCbrt, cbrtGo, List.enum, list_range_one]
  omega

/-- C2 (amended): for a whole-depth solve with `fixedIters` unset the
iteration count is at most `max(⌈n^{1/3}⌉, minIters)` (the code's budget is
`max(⌊n^{1/3}⌋, minIters)`), and, writing `ε = (accuracy/100000)·n` for the
scaled tolerance actually passed to `Solve`, whenever the initial squared
residual is at least `ε²` (so the early warning does not fire) the loop runs
iteration `k` only while `‖r_k‖² > ε²·‖r₀‖²` and stops at the first `k` with
`‖r_k‖² ≤ ε²·‖r₀‖²` unless the budget is exhausted first. -/
theorem c2_amended_iteration_bound_and_termination (m : SparseSym)
    (b x0 : ℕ → ℚ) (minIters : ℕ) (accuracy : ℚ) (addDC : Bool)
    (hwarm : scaledAccuracy accuracy (SparseSym.rows m)
        * scaledAccuracy accuracy (SparseSym.rows m)
      ≤ (cgInit m b x0 addDC (SparseSym.rows m) false).delta) :
    (solveWholeDepth m b x0 minIters accuracy addDC).iters
        ≤ max (ceilCbrt (SparseSym.rows m)) minIters ∧
    (∀ k, k < (solveWholeDepth m b x0 minIters accuracy addDC).iters →
      scaledAccuracy accuracy (SparseSym.rows m)
          * scaledAccuracy accuracy (SparseSym.rows m)
          * (cgInit m b x0 addDC (SparseSym.rows m) false).delta
        < (cgStates m addDC (SparseSym.rows m) b
            (cgInit m b x0 addDC (SparseSym.rows m) false) k).delta) ∧
    ((solveWholeDepth m b x0 minIters accuracy addDC).iters
        < max (natCbrt (SparseSym.rows m)) minIters →
      (cgStates m addDC (SparseSym.rows m) b
          (cgInit m b x0 addDC (SparseSym.rows m) false)
          (solveWholeDepth m b x0 minIters accuracy addDC).iters).delta
        ≤ scaledAccuracy accuracy (SparseSym.rows m)
          * scaledAccuracy accuracy (SparseSym.rows m)
          * (cgInit m b x0 addDC (SparseSym.rows m) false).delta) := by
  have hne : ¬ (cgInit m b x0 addDC (SparseSym.rows m) false).delta
      < scaledAccuracy accuracy (SparseSym.rows m)
        * scaledAccuracy accuracy (SparseSym.rows m) := not_lt.mpr hwarm
  have hres : solveWholeDepth m b x0 minIters accuracy addDC
      = ⟨(cgLoop m addDC (SparseSym.rows m) b
            (scaledAccuracy accuracy (SparseSym.rows m)
              * scaledAccuracy accuracy (SparseSym.rows m)
              * (cgInit m b x0 addDC (SparseSym.rows m) false).delta)
            (max (natCbrt (SparseSym.rows m)) minIters) 0
            (cgInit m b x0 addDC (SparseSym.rows m) false)).1,
          (cgLoop m addDC (SparseSym.rows m) b
            (scaledAccuracy accuracy (SparseSym.rows m)
              * scaledAccuracy accuracy (SparseSym.rows m)
              * (cgInit m b x0 addDC (SparseSym.rows m) false).delta)
            (max (natCbrt (SparseSym.rows m)) minIters) 0
            (cgInit m b x0 addDC (SparseSym.rows m) false)).2.x,
          false⟩ := by
    rw [solveWholeDepth, solveEmbed, if_neg hne]
  obtain ⟨h1, h2, h3, h4, h5⟩ := cgLoop_spec m addDC (SparseSym.rows m) b
    (scaledAccuracy accuracy (SparseSym.rows m)
      * scaledAccuracy accuracy (SparseSym.rows m)
      * (cgInit m b x0 addDC (SparseSym.rows m) false).delta)
    (cgInit m b x0 addDC (SparseSym.rows m) false)
    (max (natCbrt (SparseSym.rows m)) minIters) 0
  rw [hres]
  refine ⟨?_, ?_, ?_⟩
  · have hmax : max (natCbrt (SparseSym.rows m)) minIters
        ≤ max (ceilCbrt (SparseSym.rows m)) minIters :=
      max_le_max (natCbrt_le_ceilCbrt _) (le_refl _)
    have h2' : (cgLoop m addDC (SparseSym.rows m) b
        (scaledAccuracy accuracy (SparseSym.rows m)
          * scaledAccuracy accuracy (SparseSym.rows m)
          * (cgInit m b x0 addDC (SparseSym.rows m) false).delta)
        (max (natCbrt (SparseSym.rows m)) minIters) 0
        (cgInit m b x0 addDC (SparseSym.rows m) false)).1
        ≤ max (natCbrt (SparseSym.rows m)) minIters := by
      simpa using h2
    exact le_trans h2' hmax
  · intro k hk
    exact h3 k (Nat.zero_le k) (by simpa using hk)
  · intro hlt
    simpa using h4 (by simpa using hlt)


/-- Witness for C2 (amended) at the 1×1 identity system. -/
theorem c2_witness :
    (scaledAccuracy 1 (SparseSym.rows [[⟨0, 1/2⟩]])
        * scaledAccuracy 1 (SparseSym.rows [[⟨0, 1/2⟩]])
      ≤ (cgInit [[⟨0, 1/2⟩]] (fun _ => 1) (fun _ => 0) false
          (SparseSym.rows [[⟨0, 1/2⟩]]) false).delta) ∧
    ((solveWholeDepth [[⟨0, 1/2⟩]] (fun _ => 1) (fun _ => 0) 8 1 false).iters
        ≤ max (ceilCbrt (SparseSym.rows [[⟨0, 1/2⟩]])) 8 ∧
      (∀ k, k < (solveWholeDepth [[⟨0, 1/2⟩]] (fun _ => 1) (fun _ => 0) 8 1
          false).iters →
        scaledAccuracy 1 (SparseSym.rows [[⟨0, 1/2⟩]])
            * scaledAccuracy 1 (SparseSym.rows [[⟨0, 1/2⟩]])
            * (cgInit [[⟨0, 1/2⟩]] (fun _ => 1) (fun _ => 0) false
                (SparseSym.rows [[⟨0, 1/2⟩]]) false).delta
          < (cgStates [[⟨0, 1/2⟩]] false (SparseSym.rows [[⟨0, 1/2⟩]])
              (fun _ => 1)
              (cgInit [[⟨0, 1/2⟩]] (fun _ => 1) (fun _ => 0) false
                (SparseSym.rows [[⟨0, 1/2⟩]]) false) k).delta) ∧
      ((solveWholeDepth [[⟨0, 1/2⟩]] (fun _ => 1) (fun _ => 0) 8 1 false).iters
          < max (natCbrt (SparseSym.rows [[⟨0, 1/2⟩]])) 8 →
        (cgStates [[⟨0, 1/2⟩]] false (SparseSym.rows [[⟨0, 1/2⟩]]) (fun _ => 1)
            (cgInit [[⟨0, 1/2⟩]] (fun _ => 1) (fun _ => 0) false
              (SparseSym.rows [[⟨0, 1/2⟩]]) false)
            (solveWholeDepth [[⟨0, 1/2⟩]] (fun _ => 1) (fun _ => 0) 8 1
              false).iters).delta
          ≤ scaledAccuracy 1 (SparseSym.rows [[⟨0, 1/2⟩]])
            * scaledAccuracy 1 (SparseSym.rows [[⟨0, 1/2⟩]])
            * (cgInit [[⟨0, 1/2⟩]] (fun _ => 1) (fun _ => 0) false
                (SparseSym.rows [[⟨0, 1/2⟩]]) false).delta)) :=
  ⟨by norm_num [cgInit, mulMV, multiplyEmbed, sumRange, rowStepNoDC, accStep,
      upd, scaledAccuracy, SparseSym.rows, List.enum, list_range_one],
    c2_amended_iteration_bound_and_termination [[⟨0, 1/2⟩]] (fun _ => 1)
      (fun _ => 0) 8 1 false
      (by norm_num [cgInit, mulMV, multiplyEmbed, sumRange, rowStepNoDC,
        accStep, upd, scaledAccuracy, SparseSym.rows, List.enum,
        list_range_one])⟩

/-! ### Iso-value determination (`Octree::GetIsoValue`)

The reduction loop accumulates, over every tree node, `value * w` into
`isoValue` and `w` into `weightSum`, but only when the node's weight channel
`w = centerWeightContribution[OutputDensity ? 1 : 0]` is non-zero; the center
values themselves (computed by `getCenterValue`) enter only through guarded
products, so they are a parameter here.  The function finally returns
`isoValue / weightSum - r` unconditionally; the `Option` result models the
IEEE float division, `none` standing for the non-finite value (0/0 = NaN)
produced when `weightSum` is zero. -/

/-- Embedding of the accumulation and final division of `GetIsoValue`:
`nodes` lists each node's (center value, weight-channel) pair in traversal
order. -/
def getIsoValueEmbed (nodes : List (ℚ × ℚ)) (dirichlet : Bool) : Option ℚ :=
  let p := nodes.foldl
    (fun (a : ℚ × ℚ) (nw : ℚ × ℚ) =>
      if nw.2 ≠ 0 then (a.1 + nw.1 * nw.2, a.2 + nw.2) else a) (0, 0)
  if p.2 = 0 then none
  else some (p.1 / p.2 - (if dirichlet then 1 / 2 else 0))

/-- C3: when every node's weight channel is zero, `GetIsoValue` still divides
by the zero `weightSum` and returns 0/0 (IEEE NaN, modelled as `none`); it
does NOT fall back to returning 0 (or −0.5 under Dirichlet) as the claim
states. -/
theorem c3_zero_weights_divide_by_zero (nodes : List (ℚ × ℚ))
    (dirichlet : Bool) (hz : ∀ p ∈ nodes, p.2 = 0) :
    getIsoValueEmbed nodes dirichlet = none := by
  have hfold : ∀ a : ℚ × ℚ,
      nodes.foldl
        (fun (a : ℚ × ℚ) (nw : ℚ × ℚ) =>
          if nw.2 ≠ 0 then (a.1 + nw.1 * nw.2, a.2 + nw.2) else a) a = a := by
    induction nodes with
    | nil => intro a; rfl
    | cons nw rest ih =>
      intro a
      have h0 : nw.2 = 0 := hz nw (by simp)
      rw [List.foldl_cons, if_neg (by simp [h0])]
      exact ih (fun p hp => hz p (by simp [hp])) a
  rw [getIsoValueEmbed]
  simp only [hfold (0, 0)]
  rfl

/-- Witness for C3 at a concrete all-zero-weight tree state (two nodes with
center values 3 and 5, weights 0, Dirichlet boundary). -/
theorem c3_witness :
    (∀ p ∈ [((3 : ℚ), (0 : ℚ)), (5, 0)], p.2 = 0) ∧
      getIsoValueEmbed [(3, 0), (5, 0)] true = none :=
  ⟨by norm_num,
    c3_zero_weights_divide_by_zero [(3, 0), (5, 0)] true (by norm_num)⟩

/-! ### Edge-root parameter (`Octree::GetRoot`)

After the quadratic Hermite candidates are collected, `GetRoot` keeps only
candidates inside `[0,1]` and averages them when `nonLinearFit` is set and at
least one survived; otherwise it takes the linear fallback
`(x0 - isoValue) / (x0 - x1)`.  An out-of-range value is then clamped to
`[0,1]` before the position on the edge is computed.  `Polynomial<2>::
getSolutions` is outside the provided sources, so the candidate-root list is
universally quantified: the property holds for every list it could return. -/

/-- The source's `clamp(v, 0, 1)`. -/
def clampQ (x lo hi : ℚ) : ℚ := if x < lo then lo else if x > hi then hi else x

/-- Embedding of the `averageRoot` computation at the end of `GetRoot`. -/
def getRootParam (x0 x1 isoValue : ℚ) (nonLinearFit : Bool)
    (roots : List ℚ) : ℚ :=
  let filtered := roots.filter (fun r => 0 ≤ r ∧ r ≤ 1)
  let avg := if filtered.length ≠ 0 ∧ nonLinearFit = true
    then filtered.sum / (filtered.length : ℚ)
    else (x0 - isoValue) / (x0 - x1)
  if avg < 0 ∨ avg > 1 then clampQ avg 0 1 else avg

/-- The vertex position along the edge axis:
`position[o] = center - width/2 + width * averageRoot`. -/
def rootPosition (center width t : ℚ) : ℚ := center - width / 2 + width * t

theorem clampQ_mem (x : ℚ) : 0 ≤ clampQ x 0 1 ∧ clampQ x 0 1 ≤ 1 := by
  rw [clampQ]
  split_ifs with h1 h2
  · norm_num
  · norm_num
  · constructor <;> linarith [not_lt.mp h1, not_lt.mp h2]

theorem clampBranch_mem (avg : ℚ) :
    0 ≤ (if avg < 0 ∨ avg > 1 then clampQ avg 0 1 else avg) ∧
      (if avg < 0 ∨ avg > 1 then clampQ avg 0 1 else avg) ≤ 1 := by
  split_ifs with h
  · exact clampQ_mem avg
  · push_neg at h
    exact h

/-- C7: the edge parameter used to place the vertex always lies in `[0,1]`
(whether produced by the Hermite fit average or by the linear fallback, after
the final clamp), so the vertex lies on the geometric edge segment.  The
hypothesis mirrors the `HasEdgeRoots` guard: `GetRoot` is only reached for an
edge whose corner values straddle the iso-value, which also makes the linear
fallback's denominator non-zero. -/
theorem c7_root_param_in_unit_interval (x0 x1 isoValue : ℚ)
    (nonLinearFit : Bool) (roots : List ℚ) (center width : ℚ)
    (_hsign : (x0 < isoValue ∧ isoValue ≤ x1) ∨ (x1 < isoValue ∧ isoValue ≤ x0))
    (hw : 0 ≤ width) :
    0 ≤ getRootParam x0 x1 isoValue nonLinearFit roots ∧
    getRootParam x0 x1 isoValue nonLinearFit roots ≤ 1 ∧
    center - width / 2
      ≤ rootPosition center width (getRootParam x0 x1 isoValue nonLinearFit roots) ∧
    rootPosition center width (getRootParam x0 x1 isoValue nonLinearFit roots)
      ≤ center + width / 2 := by
  have hmem : 0 ≤ getRootParam x0 x1 isoValue nonLinearFit roots ∧
      getRootParam x0 x1 isoValue nonLinearFit roots ≤ 1 := by
    rw [getRootParam]
    exact clampBranch_mem _
  obtain ⟨h0, h1⟩ := hmem
  refine ⟨h0, h1, ?_, ?_⟩
  · rw [rootPosition]
    nlinarith
  · rw [rootPosition]
    nlinarith

/-- Witness for C7 with a Hermite candidate list containing one in-range and
one out-of-range root. -/
theorem c7_witness :
    (((0 : ℚ) < 1/2 ∧ (1/2 : ℚ) ≤ 1) ∨ ((1 : ℚ) < 1/2 ∧ (1/2 : ℚ) ≤ 0)) ∧
      (0 ≤ getRootParam 0 1 (1/2) true [3/4, -2] ∧
        getRootParam 0 1 (1/2) true [3/4, -2] ≤ 1 ∧
        (1/2 : ℚ) - 1 / 2
          ≤ rootPosition (1/2) 1 (getRootParam 0 1 (1/2) true [3/4, -2]) ∧
        rootPosition (1/2) 1 (getRootParam 0 1 (1/2) true [3/4, -2])
          ≤ 1/2 + 1 / 2) :=
  ⟨Or.inl (by norm_num),
    c7_root_param_in_unit_interval 0 1 (1/2) true [3/4, -2] (1/2) 1
      (Or.inl (by norm_num)) (by norm_num)⟩

/-! ### Bounds-checked arrays (`Src/Array.inl`)

`Array<C>` keeps a data pointer together with a window `[min, max)`;
`operator[]` calls `_assertBounds(idx)`, which prints the out-of-bounds
diagnostic and terminates the process (`ASSERT(0); exit(0)`) whenever
`idx < min || idx >= max`.  `operator+ / += / ++ / - / -= / --` shift the
pointer and counter-shift the window.  Addresses are modelled abstractly as
offsets (in elements) from the start of the allocation; `none` models
process termination. -/

/-- The state of an `Array<C>`: abstract address of the element the data
pointer designates, and the recorded window `[lo, hi)` (`min`/`max` in the
source). -/
structure ArrayWindow where
  base : ℤ
  lo : ℤ
  hi : ℤ
deriving DecidableEq, Repr

/-- `Array::New(size)` / `Array::Alloc(size)`: fresh allocation with window
`[0, size)`. -/
def arrNew (size : ℕ) : ArrayWindow := ⟨0, 0, (size : ℤ)⟩

/-- `operator+(idx)` and `operator+=(idx)` (and through them `-`, `-=`,
`++`, `--`): shift the data pointer by `idx` and the window by `-idx`. -/
def arrShift (a : ArrayWindow) (idx : ℤ) : ArrayWindow :=
  ⟨a.base + idx, a.lo - idx, a.hi - idx⟩

/-- `operator[]`: `_assertBounds(idx)` then `data[idx]`; returns the abstract
address of the accessed element, or `none` when the process is terminated by
the bounds assertion. -/
def arrAccess (a : ArrayWindow) (idx : ℤ) : Option ℤ :=
  if idx < a.lo ∨ a.hi ≤ idx then none else some (a.base + idx)

/-- The window invariant tying a view to its allocation of `size` elements:
the recorded window designates exactly the allocated cells `[0, size)`. -/
def inAllocation (size : ℕ) (a : ArrayWindow) : Prop :=
  a.base + a.lo = 0 ∧ a.base + a.hi = (size : ℤ)

theorem arrNew_inAllocation (size : ℕ) : inAllocation size (arrNew size) := by
  constructor <;> simp [arrNew, inAllocation]

/-- C10: for every view of an allocation reachable by pointer shifts,
`operator[]` yields an element exactly when `minimum() ≤ idx < maximum()`;
any other index terminates the process (`none`); every address actually
read or written lies inside the allocation; and the window invariant is
preserved by `operator+` / `operator+=`, so the same holds after shifting. -/
theorem c10_array_access_bounds (size : ℕ) (a : ArrayWindow) (idx : ℤ)
    (h : inAllocation size a) :
    ((arrAccess a idx).isSome ↔ (a.lo ≤ idx ∧ idx < a.hi)) ∧
    (∀ addr, arrAccess a idx = some addr → 0 ≤ addr ∧ addr < (size : ℤ)) ∧
    (∀ d : ℤ, inAllocation size (arrShift a d)) := by
  obtain ⟨hlo, hhi⟩ := h
  refine ⟨?_, ?_, ?_⟩
  · rw [arrAccess]
    split_ifs with hcond
    · simp only [Option.isSome_none, Bool.false_eq_true, false_iff]
      omega
    · simp only [Option.isSome_some, true_iff]
      omega
  · intro addr haddr
    rw [arrAccess] at haddr
    by_cases hcond : idx < a.lo ∨ a.hi ≤ idx
    · rw [if_pos hcond] at haddr
      exact absurd haddr (by simp)
    · rw [if_neg hcond] at haddr
      have h2 : a.base + idx = addr := by simpa using haddr
      omega
  · intro d
    constructor <;> simp [arrShift, inAllocation] <;> omega

/-- Witness for C10 on a shifted view of a 4-element allocation. -/
theorem c10_witness :
    inAllocation 4 (arrShift (arrNew 4) 2) ∧
      (((arrAccess (arrShift (arrNew 4) 2) (-1)).isSome
          ↔ ((arrShift (arrNew 4) 2).lo ≤ -1 ∧ -1 < (arrShift (arrNew 4) 2).hi)) ∧
        (∀ addr, arrAccess (arrShift (arrNew 4) 2) (-1) = some addr →
          0 ≤ addr ∧ addr < (4 : ℤ)) ∧
        (∀ d : ℤ, inAllocation 4 (arrShift (arrShift (arrNew 4) 2) d))) :=
  ⟨⟨by decide, by decide⟩,
    c10_array_access_bounds 4 (arrShift (arrNew 4) 2) (-1) ⟨by decide, by decide⟩⟩


/-! ### Density splatting (`Octree::UpdateWeightContribution`)

For each axis the code computes the three quadratic B-spline kernel values
`dx[i][0..2]` and then multiplies ONLY the first one by
`SAMPLE_SCALE = 1/(0.125² + 0.75² + 0.125²)` (`dx[i][0] *= SAMPLE_SCALE`);
the per-cell increment is `dx[0][i] * dx[1][j] * weight * dx[2][k]` added to
every present neighbour of the 3×3×3 neighbourhood. -/

/-- `SAMPLE_SCALE = 1 / (0.125 * 0.125 + 0.75 * 0.75 + 0.125 * 0.125)`. -/
def SAMPLE_SCALE : ℚ := 1 / (0.125 * 0.125 + 0.75 * 0.75 + 0.125 * 0.125)

/-- The three unscaled per-axis quadratic B-spline kernel values of the
splat, exactly as computed before the `dx[i][0] *= SAMPLE_SCALE` line:
`dx0 = 1.125 + 1.5·x + 0.5·x²` at `x = (c − p − w)/w`,
`dx1 = 0.75 − x²` at `x = (c − p)/w`, `dx2 = 1 − dx1 − dx0`. -/
def rawSplat (center position width : ℚ) : Fin 3 → ℚ :=
  fun k =>
    let x0 := (center - position - width) / width
    let d0 := 1.125 + 1.5 * x0 + 0.5 * x0 * x0
    let x1 := (center - position) / width
    let d1 := 0.75 - x1 * x1
    match k with
    | 0 => d0
    | 1 => d1
    | 2 => 1 - d1 - d0

/-- The per-axis values actually used by the stencil: the first entry
carries the `SAMPLE_SCALE` factor (`dx[i][0] *= SAMPLE_SCALE`). -/
def quadSplat (center position width : ℚ) (k : Fin 3) : ℚ :=
  if k = 0 then rawSplat center position width 0 * SAMPLE_SCALE
  else rawSplat center position width k

/-- The increment the code adds at stencil cell `(i,j,k)`:
`dx[0][i] * dx[1][j] * weight * dx[2][k]`. -/
def uwcInc (cx cy cz px py pz width weight : ℚ) (i j k : Fin 3) : ℚ :=
  quadSplat cx px width i * quadSplat cy py width j * weight
    * quadSplat cz pz width k

/-- Modelled from the claim's words: the point's weight times the tensor
product of the three unscaled per-axis kernel values, the whole stencil
scaled (uniformly) by `SAMPLE_SCALE`. -/
def specC6Inc (cx cy cz px py pz width weight : ℚ) (i j k : Fin 3) : ℚ :=
  SAMPLE_SCALE * (weight * (rawSplat cx px width i * rawSplat cy py width j
    * rawSplat cz pz width k))

/-- The 27 stencil cells in loop order. -/
def nbrTriples : List (Fin 3 × Fin 3 × Fin 3) :=
  (List.finRange 3).flatMap (fun i =>
    (List.finRange 3).flatMap (fun j =>
      (List.finRange 3).map (fun k => (i, j, k))))

/-- Embedding of the triple loop of `UpdateWeightContribution`: every
present neighbour (`nbrs i j k = some n`, where `n` identifies the node)
receives its cell's increment into `centerWeightContribution[0]`. -/
def updateWeightContribution (nbrs : Fin 3 → Fin 3 → Fin 3 → Option ℕ)
    (A : ℕ → ℚ) (cx cy cz px py pz width weight : ℚ) : ℕ → ℚ :=
  nbrTriples.foldl
    (fun B t =>
      match nbrs t.1 t.2.1 t.2.2 with
      | some n => upd B n (B n + uwcInc cx cy cz px py pz width weight t.1 t.2.1 t.2.2)
      | none => B) A

theorem foldl_scatter_const {σ : Type} (l : List σ) (tgt : σ → Option ℕ)
    (inc : σ → ℚ) (A : ℕ → ℚ) (n : ℕ) :
    (l.foldl
        (fun B s =>
          match tgt s with
          | some m => upd B m (B m + inc s)
          | none => B) A) n
      = A n + ((l.filter (fun s => tgt s = some n)).map inc).sum := by
  induction l generalizing A with
  | nil => simp
  | cons s rest ih =>
    simp only [List.foldl_cons]
    cases h : tgt s with
    | none =>
      simp only [h]
      rw [ih, List.filter_cons_of_neg (by simp [h])]
    | some m =>
      simp only [h]
      by_cases hm : m = n
      · subst hm
        rw [ih, List.filter_cons_of_pos (by simp [h]), List.map_cons,
          List.sum_cons, upd_same]
        ring
      · rw [ih, List.filter_cons_of_neg (by simp [h, hm]),
          upd_other _ _ _ _ (fun hh => hm hh.symm)]

theorem filter_eq_singleton {α : Type} [DecidableEq α] (l : List α)
    (p : α → Bool) (a : α) (hmem : a ∈ l) (hnd : l.Nodup) (hpa : p a = true)
    (huniq : ∀ b ∈ l, p b = true → b = a) : l.filter p = [a] := by
  induction l with
  | nil => simp at hmem
  | cons b rest ih =>
    rw [List.nodup_cons] at hnd
    rcases List.mem_cons.mp hmem with hba | har
    · subst hba
      rw [List.filter_cons_of_pos hpa]
      have hrest : rest.filter p = [] := by
        rw [List.filter_eq_nil_iff]
        intro c hc hpc
        have := huniq c (by simp [hc]) hpc
        subst this
        exact hnd.1 hc
      rw [hrest]
    · have hpb : ¬ p b = true := by
        intro hpb
        have := huniq b (by simp) hpb
        subst this
        exact hnd.1 har
      rw [List.filter_cons_of_neg hpb]
      exact ih har hnd.2 (fun c hc hpc => huniq c (by simp [hc]) hpc)

theorem mem_nbrTriples (t : Fin 3 × Fin 3 × Fin 3) : t ∈ nbrTriples := by
  rcases t with ⟨i, j, k⟩
  fin_cases i <;> fin_cases j <;> fin_cases k <;> decide

theorem nodup_nbrTriples : nbrTriples.Nodup := by decide

/-- The number of zero coordinates of a stencil cell (each zero coordinate
contributes one `SAMPLE_SCALE` factor). -/
def zeroCount (i j k : Fin 3) : ℕ :=
  (if i = 0 then 1 else 0) + (if j = 0 then 1 else 0) + (if k = 0 then 1 else 0)

/-- Counterexample for C6: at a point sitting on the node centre (all three
kernels `(0.125, 0.75, 0.125)`), the code's increment at the centre cell
`(1,1,1)` is `0.75³` with NO `SAMPLE_SCALE` factor, while the claim's
uniformly scaled stencil predicts `SAMPLE_SCALE · 0.75³`. -/
theorem c6_counterexample :
    uwcInc (1/2) (1/2) (1/2) (1/2) (1/2) (1/2) 1 1 1 1 1
      ≠ specC6Inc (1/2) (1/2) (1/2) (1/2) (1/2) (1/2) 1 1 1 1 1 := by
  norm_num [uwcInc, specC6Inc, quadSplat, rawSplat, SAMPLE_SCALE]

/-- C6 (amended): `UpdateWeightContribution` adds to each present node of
the 3×3×3 neighbourhood the increment `weight · SAMPLE_SCALE^z ·
(raw_x(i) · raw_y(j) · raw_z(k))`, where `z` is the number of coordinates of
the cell equal to 0 — i.e. the `SAMPLE_SCALE` factor multiplies only the
first kernel entry of each axis, not the whole stencil uniformly. -/
theorem c6_amended_scale_on_first_axis_entry
    (nbrs : Fin 3 → Fin 3 → Fin 3 → Option ℕ) (A : ℕ → ℚ)
    (cx cy cz px py pz width weight : ℚ) (i j k : Fin 3) (n : ℕ)
    (hn : nbrs i j k = some n)
    (huniq : ∀ t ∈ nbrTriples, nbrs t.1 t.2.1 t.2.2 = some n → t = (i, j, k)) :
    updateWeightContribution nbrs A cx cy cz px py pz width weight n
      = A n + weight * SAMPLE_SCALE ^ zeroCount i j k
          * (rawSplat cx px width i * rawSplat cy py width j
            * rawSplat cz pz width k) := by
  rw [updateWeightContribution, foldl_scatter_const]
  have hfil : nbrTriples.filter
      (fun t => nbrs t.1 t.2.1 t.2.2 = some n) = [(i, j, k)] :=
    filter_eq_singleton _ _ (i, j, k) (mem_nbrTriples _) nodup_nbrTriples
      (by simp [hn]) (fun t ht hp => huniq t ht (by simpa using hp))
  rw [hfil, List.map_cons, List.map_nil, List.sum_cons, List.sum_nil]
  have hinc : uwcInc cx cy cz px py pz width weight i j k
      = weight * SAMPLE_SCALE ^ zeroCount i j k
        * (rawSplat cx px width i * rawSplat cy py width j
          * rawSplat cz pz width k) := by
    fin_cases i <;> fin_cases j <;> fin_cases k <;>
      simp [uwcInc, quadSplat, zeroCount] <;> ring
  rw [hinc]
  ring

/-- Witness for C6 (amended): the centre cell of a one-node neighbourhood. -/
theorem c6_witness :
    ((fun i j k : Fin 3 => if i = 1 ∧ j = 1 ∧ k = 1 then some 0 else none) 1 1 1
        = some 0) ∧
      updateWeightContribution
          (fun i j k : Fin 3 => if i = 1 ∧ j = 1 ∧ k = 1 then some 0 else none)
          (fun _ => 0) (1/2) (1/2) (1/2) (1/2) (1/2) (1/2) 1 1 0
        = (fun _ => (0 : ℚ)) 0 + 1 * SAMPLE_SCALE ^ zeroCount 1 1 1
            * (rawSplat (1/2) (1/2) 1 1 * rawSplat (1/2) (1/2) 1 1
              * rawSplat (1/2) (1/2) 1 1) :=
  ⟨by decide,
    c6_amended_scale_on_first_axis_entry
      (fun i j k : Fin 3 => if i = 1 ∧ j = 1 ∧ k = 1 then some 0 else none)
      (fun _ => 0) (1/2) (1/2) (1/2) (1/2) (1/2) (1/2) 1 1 1 1 1 0
      (by decide) (by decide)⟩


/-! ### Sub-domain solve write-back (`Octree::SolveFixedDepthMatrix`,
`subdivideDepth > 0` variant)

After a sub-domain CG completes, the write-back loop walks each adjacency
node's ancestor chain up to the coarse root's depth and copies `_X[j]` into
the node's `solution` only when that ancestor's sorted index is `>=` the
coarse root's sorted index.  The octree is modelled as an arena of nodes
carrying their sorted index, depth, and parent link; solutions are keyed by
sorted index. -/

/-- Arena node: sorted index (`nodeData.nodeIndex`), depth, parent arena
index. -/
structure SubNode where
  sortedIdx : ℕ
  depth : ℕ
  parent : Option ℕ
deriving DecidableEq, Repr

/-- The ancestor walk `while(temp->depth() > root.depth()) temp =
temp->parent();`, with fuel (the node's depth bounds the walk length). -/
def ancWalk (ar : List SubNode) (rootDepth : ℕ) : ℕ → ℕ → ℕ
  | 0, a => a
  | fuel + 1, a =>
    match ar[a]? with
    | none => a
    | some node =>
      if rootDepth < node.depth then
        match node.parent with
        | some p => ancWalk ar rootDepth fuel p
        | none => a
      else a

/-- One step of the write-back loop (src lines 1823–1829) for the adjacency
entry `p = (j, arena index)`: look the node up, walk to its ancestor at the
root's depth, and if that ancestor's sorted index is `≥` the root's, write
`X j` into the node's solution slot. -/
def wbStep (ar : List SubNode) (rootIdx rootDepth : ℕ) (X : ℕ → ℚ)
    (s : ℕ → ℚ) (p : ℕ × ℕ) : ℕ → ℚ :=
  match ar[p.2]? with
  | none => s
  | some node =>
    match ar[ancWalk ar rootDepth node.depth p.2]? with
    | none => s
    | some ancNode =>
      if rootIdx ≤ ancNode.sortedIdx then upd s node.sortedIdx (X p.1) else s

/-- Embedding of the whole write-back loop over the adjacency list. -/
def writeBack (ar : List SubNode) (rootIdx rootDepth : ℕ) (adj : List ℕ)
    (X : ℕ → ℚ) (sols : ℕ → ℚ) : ℕ → ℚ :=
  adj.enum.foldl (wbStep ar rootIdx rootDepth X) sols

theorem wbStep_changed (ar : List SubNode) (rootIdx rootDepth : ℕ)
    (X : ℕ → ℚ) (s : ℕ → ℚ) (p : ℕ × ℕ) (n : ℕ)
    (h : wbStep ar rootIdx rootDepth X s p n ≠ s n) :
    ∃ node, ar[p.2]? = some node ∧ node.sortedIdx = n := by
  rw [wbStep] at h
  cases hget : ar[p.2]? with
  | none => simp only [hget] at h; exact absurd rfl h
  | some node =>
    simp only [hget] at h
    cases hganc : ar[ancWalk ar rootDepth node.depth p.2]? with
    | none => simp only [hganc] at h; exact absurd rfl h
    | some ancNode =>
      simp only [hganc] at h
      by_cases hge : rootIdx ≤ ancNode.sortedIdx
      · rw [if_pos hge] at h
        by_cases hn : n = node.sortedIdx
        · exact ⟨node, rfl, hn.symm⟩
        · rw [upd_other _ _ _ _ hn] at h
          exact absurd rfl h
      · rw [if_neg hge] at h
        exact absurd rfl h

theorem writeBack_changed (ar : List SubNode) (rootIdx rootDepth : ℕ)
    (l : List (ℕ × ℕ)) (X : ℕ → ℚ) (s : ℕ → ℚ) (n : ℕ)
    (h : (l.foldl (wbStep ar rootIdx rootDepth X) s) n ≠ s n) :
    ∃ p ∈ l, ∃ node, ar[p.2]? = some node ∧ node.sortedIdx = n := by
  induction l generalizing s with
  | nil => exact absurd rfl h
  | cons p rest ih =>
    rw [List.foldl_cons] at h
    by_cases hs : (rest.foldl (wbStep ar rootIdx rootDepth X)
        (wbStep ar rootIdx rootDepth X s p)) n
        = (wbStep ar rootIdx rootDepth X s p) n
    · rw [hs] at h
      obtain ⟨node, hnode, hidx⟩ := wbStep_changed ar rootIdx rootDepth X s p n h
      exact ⟨p, by simp, node, hnode, hidx⟩
    · obtain ⟨q, hq, node, hnode, hidx⟩ := ih _ hs
      exact ⟨q, by simp [hq], node, hnode, hidx⟩

/-- C5: the sub-domain write-back writes only into adjacency nodes whose
sorted index is `≥` the coarse root's sorted index, and the solution of
every other collected node is unchanged.  The hypothesis `hord` records the
sorted-order fact (established by `SortedTreeNodes::set`, cf. C1) that every
adjacency node — all of depth strictly greater than the root's depth — has
sorted index at least the root's (nodes of greater depth come later in
`treeNodes[]`). -/
theorem c5_writeback_only_at_or_after_root (ar : List SubNode)
    (rootIdx rootDepth : ℕ) (adj : List ℕ) (X : ℕ → ℚ) (sols : ℕ → ℚ)
    (hord : ∀ a ∈ adj, ∀ node, ar[a]? = some node → rootIdx ≤ node.sortedIdx) :
    (∀ n, writeBack ar rootIdx rootDepth adj X sols n ≠ sols n →
      rootIdx ≤ n ∧ ∃ a ∈ adj, ∃ node, ar[a]? = some node ∧ node.sortedIdx = n) ∧
    (∀ a ∈ adj, ∀ node, ar[a]? = some node → node.sortedIdx < rootIdx →
      writeBack ar rootIdx rootDepth adj X sols node.sortedIdx
        = sols node.sortedIdx) := by
  constructor
  · intro n hn
    obtain ⟨p, hp, node, hnode, hidx⟩ := writeBack_changed ar rootIdx rootDepth
      adj.enum X sols n hn
    have hmem : p.2 ∈ adj := List.snd_mem_of_mem_enum hp
    exact ⟨hidx ▸ hord p.2 hmem node hnode, p.2, hmem, node, hnode, hidx⟩
  · intro a ha node hnode hlt
    exact absurd (hord a ha node hnode) (by omega)

/-- Witness for C5: a two-node arena with the coarse root at sorted index 1
and one depth-2 adjacency node at sorted index 5. -/
theorem c5_witness :
    (∀ a ∈ [1], ∀ node : SubNode,
      [(⟨1, 1, none⟩ : SubNode), ⟨5, 2, some 0⟩][a]? = some node →
        1 ≤ node.sortedIdx) ∧
      ((∀ n, writeBack [⟨1, 1, none⟩, ⟨5, 2, some 0⟩] 1 1 [1] (fun _ => 7)
          (fun _ => 0) n ≠ (fun _ => (0 : ℚ)) n →
        1 ≤ n ∧ ∃ a ∈ [1], ∃ node : SubNode,
          [(⟨1, 1, none⟩ : SubNode), ⟨5, 2, some 0⟩][a]? = some node ∧
            node.sortedIdx = n) ∧
      (∀ a ∈ [1], ∀ node : SubNode,
        [(⟨1, 1, none⟩ : SubNode), ⟨5, 2, some 0⟩][a]? = some node →
          node.sortedIdx < 1 →
          writeBack [⟨1, 1, none⟩, ⟨5, 2, some 0⟩] 1 1 [1] (fun _ => 7)
            (fun _ => 0) node.sortedIdx = (fun _ => (0 : ℚ)) node.sortedIdx)) :=
  ⟨by intro a ha node hnode
      simp at ha
      subst ha
      simp at hnode
      subst hnode
      decide,
    c5_writeback_only_at_or_after_root [⟨1, 1, none⟩, ⟨5, 2, some 0⟩] 1 1 [1]
      (fun _ => 7) (fun _ => 0)
      (by intro a ha node hnode
          simp at ha
          subst ha
          simp at hnode
          subst hnode
          decide)⟩


/-! ### Up-sample / down-sample (`UpSampleGeneric`, `Octree::UpSample`,
`Octree::DownSample`)

`UpSampleGeneric` iterates over every fine node at depth `d`, derives from
each offset coordinate an `UpSampleData` (start slot and the two 1D weights,
with boundary handling through `cornerValue`), and calls `func` for each of
the up-to-8 present parent-level neighbours.  `DownSample` accumulates
`constraints[i] * v0*v1*v2` into the coarse slot; `UpSample` accumulates
`coefficients[coarse] * v0*v1*v2` into the fine slot `i`.  Products are
taken in exact arithmetic, where the source's chained multiplication orders
coincide with `v0*v1*v2`.

The two operators guard differently before doing any work: `DownSample`
begins with `if(depth == 0) return;`, while `UpSample` begins with
`if((boundaryType_ != BoundaryTypeNone && depth == 0) ||
(boundaryType_ == BoundaryTypeNone && depth <= 2)) return;`.  Under
`BoundaryTypeNone` the two guards disagree at depths 1 and 2: `UpSample`
no-ops while `DownSample` accumulates (and `SetLaplacianConstraints` does
invoke both at depth 2 in that regime), so the operators are adjoint
exactly when the depth is outside that window. -/

/-- The boundary type (`BoundaryTypeNone/Dirichlet/Neumann`). -/
inductive BoundaryType where
  | bnone
  | dirichlet
  | neumann
deriving DecidableEq, Repr

/-- `cornerValue = Dirichlet ? 0.5 : Neumann ? 1 : 0.75`. -/
def cornerValue : BoundaryType → ℚ
  | .dirichlet => 0.5
  | .neumann => 1
  | .bnone => 0.75

/-- `UpSampleData`: the start slot and the two 1D interpolation weights of
one axis. -/
structure UpSampleData where
  start : ℕ
  v0 : ℚ
  v1 : ℚ
deriving DecidableEq, Repr

/-- The per-axis choice in `UpSampleGeneric`:
`off == 0 → (1, cornerValue, 0)`, `off+1 == 1<<depth → (0, 0, cornerValue)`,
odd `off → (1, 0.75, 0.25)`, even `off → (0, 0.25, 0.75)`. -/
def upSampleData (cv : ℚ) (depth : ℕ) (off : ℕ) : UpSampleData :=
  if off = 0 then ⟨1, cv, 0⟩
  else if off + 1 = 2 ^ depth then ⟨0, 0, cv⟩
  else if off % 2 = 1 then ⟨1, 0.75, 0.25⟩
  else ⟨0, 0.25, 0.75⟩

/-- `usData[dd].v[idx]` for `idx ∈ {0,1}`. -/
def usVal (u : UpSampleData) (idx : ℕ) : ℚ := if idx = 0 then u.v0 else u.v1

/-- A fine node as `UpSampleGeneric` sees it: its global sorted index, its
three offset coordinates, and the parent-level neighbour table (`none` for
an absent neighbour or one with `nodeIndex == -1`; `some j` gives the
neighbour's global sorted index). -/
structure FineNode where
  fIdx : ℕ
  off0 : ℕ
  off1 : ℕ
  off2 : ℕ
  nbr : ℕ → ℕ → ℕ → Option ℕ

/-- The 8 loop triples `(ii, jj, kk)` in source order. -/
def slotTriples8 : List (ℕ × ℕ × ℕ) :=
  [(0,0,0), (0,0,1), (0,1,0), (0,1,1), (1,0,0), (1,0,1), (1,1,0), (1,1,1)]

/-- The 1D weight product `usData[0].v[ii] * usData[1].v[jj] * usData[2].v[kk]`. -/
def fineWeight (cv : ℚ) (depth : ℕ) (f : FineNode) (t : ℕ × ℕ × ℕ) : ℚ :=
  usVal (upSampleData cv depth f.off0) t.1
    * usVal (upSampleData cv depth f.off1) t.2.1
    * usVal (upSampleData cv depth f.off2) t.2.2

/-- The neighbour looked up at slot `(ii + start0, jj + start1, kk + start2)`. -/
def fineTarget (cv : ℚ) (depth : ℕ) (f : FineNode) (t : ℕ × ℕ × ℕ) :
    Option ℕ :=
  f.nbr (t.1 + (upSampleData cv depth f.off0).start)
    (t.2.1 + (upSampleData cv depth f.off1).start)
    (t.2.2 + (upSampleData cv depth f.off2).start)

/-- Embedding of `UpSampleGeneric`: fold `func` (here `step`, receiving the
array, the fine index `i`, the neighbour index, and the weight product) over
every fine node and every present neighbour slot. -/
def upSampleGeneric (cv : ℚ) (depth : ℕ) (fines : List FineNode)
    (step : (ℕ → ℚ) → ℕ → ℕ → ℚ → (ℕ → ℚ)) (A : ℕ → ℚ) : ℕ → ℚ :=
  fines.foldl
    (fun B f =>
      slotTriples8.foldl
        (fun C t =>
          match fineTarget cv depth f t with
          | some j => step C f.fIdx j (fineWeight cv depth f t)
          | none => C) B) A

/-- The accumulation body of `Octree::DownSample`
(`constraints[node.nodeIndex] += constraints[i] * v0*v1*v2`), i.e. the part
after its early return. -/
def downSampleBody (cv : ℚ) (depth : ℕ) (fines : List FineNode)
    (A : ℕ → ℚ) : ℕ → ℚ :=
  upSampleGeneric cv depth fines (fun B i j w => upd B j (B j + B i * w)) A

/-- The accumulation body of `Octree::UpSample`
(`coefficients[i] += coefficients[node.nodeIndex] * v0*v1*v2`), i.e. the
part after its early return. -/
def upSampleBody (cv : ℚ) (depth : ℕ) (fines : List FineNode)
    (A : ℕ → ℚ) : ℕ → ℚ :=
  upSampleGeneric cv depth fines (fun B i j w => upd B i (B i + B j * w)) A

/-- Embedding of `Octree::DownSample`, including its early return
`if(depth == 0) return;`. -/
def downSampleEmbed (bt : BoundaryType) (depth : ℕ) (fines : List FineNode)
    (A : ℕ → ℚ) : ℕ → ℚ :=
  if depth = 0 then A else downSampleBody (cornerValue bt) depth fines A

/-- Embedding of `Octree::UpSample` (the single-array variant used by
`SetLaplacianConstraints`), including its early return
`if((boundaryType_ != BoundaryTypeNone && depth == 0) ||
(boundaryType_ == BoundaryTypeNone && depth <= 2)) return;`. -/
def upSampleEmbed (bt : BoundaryType) (depth : ℕ) (fines : List FineNode)
    (A : ℕ → ℚ) : ℕ → ℚ :=
  if (bt ≠ BoundaryType.bnone ∧ depth = 0) ∨
      (bt = BoundaryType.bnone ∧ depth ≤ 2) then A
  else upSampleBody (cornerValue bt) depth fines A

theorem slotFoldDown_val (cv : ℚ) (depth : ℕ) (f : FineNode)
    (l : List (ℕ × ℕ × ℕ)) (C : ℕ → ℚ) (n : ℕ)
    (hne : ∀ t ∈ l, ∀ j, fineTarget cv depth f t = some j → j ≠ f.fIdx) :
    (l.foldl
        (fun B t =>
          match fineTarget cv depth f t with
          | some j => upd B j (B j + B f.fIdx * fineWeight cv depth f t)
          | none => B) C) n
      = C n + (l.map (fun t =>
          match fineTarget cv depth f t with
          | some j => if j = n then C f.fIdx * fineWeight cv depth f t else 0
          | none => 0)).sum := by
  induction l generalizing C with
  | nil => simp
  | cons t ts ih =>
    simp only [List.foldl_cons, List.map_cons, List.sum_cons]
    cases h : fineTarget cv depth f t with
    | none =>
      simp only [h]
      rw [ih _ (fun t' ht' => hne t' (by simp [ht']))]
      ring
    | some j =>
      simp only [h]
      have hj : j ≠ f.fIdx := hne t (by simp) j h
      have hCfix : upd C j (C j + C f.fIdx * fineWeight cv depth f t) f.fIdx
          = C f.fIdx := upd_other _ _ _ _ (fun hh => hj hh.symm)
      rw [ih _ (fun t' ht' => hne t' (by simp [ht']))]
      have hmap : ts.map (fun t' =>
          match fineTarget cv depth f t' with
          | some j' => if j' = n then
              upd C j (C j + C f.fIdx * fineWeight cv depth f t) f.fIdx
                * fineWeight cv depth f t' else 0
          | none => 0)
          = ts.map (fun t' =>
          match fineTarget cv depth f t' with
          | some j' => if j' = n then C f.fIdx * fineWeight cv depth f t' else 0
          | none => 0) := by
        apply List.map_congr_left
        intro t' _
        cases h' : fineTarget cv depth f t' with
        | none => simp only [h']
        | some j' => simp only [h', hCfix]
      rw [hmap]
      by_cases hn : j = n
      · subst hn
        rw [upd_same, if_pos rfl]
        ring
      · rw [upd_other _ _ _ _ (fun hh => hn hh.symm), if_neg hn]
        ring

theorem slotFoldUp_val (cv : ℚ) (depth : ℕ) (f : FineNode)
    (l : List (ℕ × ℕ × ℕ)) (C : ℕ → ℚ) (n : ℕ)
    (hne : ∀ t ∈ l, ∀ j, fineTarget cv depth f t = some j → j ≠ f.fIdx) :
    (l.foldl
        (fun B t =>
          match fineTarget cv depth f t with
          | some j => upd B f.fIdx (B f.fIdx + B j * fineWeight cv depth f t)
          | none => B) C) n
      = C n + (if n = f.fIdx then (l.map (fun t =>
          match fineTarget cv depth f t with
          | some j => C j * fineWeight cv depth f t
          | none => 0)).sum else 0) := by
  induction l generalizing C with
  | nil =>
    by_cases hn : n = f.fIdx <;> simp [hn]
  | cons t ts ih =>
    simp only [List.foldl_cons, List.map_cons, List.sum_cons]
    cases h : fineTarget cv depth f t with
    | none =>
      simp only [h]
      rw [ih _ (fun t' ht' => hne t' (by simp [ht']))]
      by_cases hn : n = f.fIdx <;> simp [hn]
    | some j =>
      simp only [h]
      have hj : j ≠ f.fIdx := hne t (by simp) j h
      rw [ih _ (fun t' ht' => hne t' (by simp [ht']))]
      have hmap : ts.map (fun t' =>
          match fineTarget cv depth f t' with
          | some j' =>
              upd C f.fIdx (C f.fIdx + C j * fineWeight cv depth f t) j'
                * fineWeight cv depth f t'
          | none => 0)
          = ts.map (fun t' =>
          match fineTarget cv depth f t' with
          | some j' => C j' * fineWeight cv depth f t'
          | none => 0) := by
        apply List.map_congr_left
        intro t' ht'
        cases h' : fineTarget cv depth f t' with
        | none => simp only [h']
        | some j' =>
          have hj' : j' ≠ f.fIdx := hne t' (by simp [ht']) j' h'
          simp only [h', upd_other _ _ _ _ hj']
      rw [hmap]
      by_cases hn : n = f.fIdx
      · subst hn
        rw [upd_same]
        simp only [eq_self_iff_true, if_true]
        ring
      · simp only [if_neg hn, upd_other _ _ _ _ hn]


theorem downFold_val (cv : ℚ) (depth : ℕ) (fines : List FineNode)
    (c1 f0 : ℕ) (hsep : c1 ≤ f0)
    (hfid : ∀ f ∈ fines, f0 ≤ f.fIdx)
    (htgt : ∀ f ∈ fines, ∀ t ∈ slotTriples8, ∀ j,
      fineTarget cv depth f t = some j → j < c1)
    (A : ℕ → ℚ) :
    ∀ B : ℕ → ℚ, (∀ f ∈ fines, B f.fIdx = A f.fIdx) → ∀ n,
    (fines.foldl
        (fun D f =>
          slotTriples8.foldl
            (fun C t =>
              match fineTarget cv depth f t with
              | some j => upd C j (C j + C f.fIdx * fineWeight cv depth f t)
              | none => C) D) B) n
      = B n + (fines.map (fun f =>
          (slotTriples8.map (fun t =>
            match fineTarget cv depth f t with
            | some j => if j = n then A f.fIdx * fineWeight cv depth f t else 0
            | none => 0)).sum)).sum := by
  induction fines with
  | nil => intro B _ n; simp
  | cons f fs ih =>
    intro B hagree n
    have hfmem : f0 ≤ f.fIdx := hfid f (by simp)
    have hne : ∀ t ∈ slotTriples8, ∀ j,
        fineTarget cv depth f t = some j → j ≠ f.fIdx := by
      intro t ht j hj
      have := htgt f (by simp) t ht j hj
      omega
    simp only [List.foldl_cons, List.map_cons, List.sum_cons]
    have hzero : ∀ m, f0 ≤ m →
        (slotTriples8.map (fun t =>
          match fineTarget cv depth f t with
          | some j => if j = m then B f.fIdx * fineWeight cv depth f t else 0
          | none => 0)).sum = 0 := by
      intro m hm
      apply List.sum_eq_zero
      intro y hy
      obtain ⟨t, ht, rfl⟩ := List.mem_map.mp hy
      cases hj : fineTarget cv depth f t with
      | none => rfl
      | some j =>
        have := htgt f (by simp) t ht j hj
        simp only [hj]
        rw [if_neg (by omega)]
    have hagree' : ∀ g ∈ fs,
        (slotTriples8.foldl
          (fun C t =>
            match fineTarget cv depth f t with
            | some j => upd C j (C j + C f.fIdx * fineWeight cv depth f t)
            | none => C) B) g.fIdx = A g.fIdx := by
      intro g hg
      rw [slotFoldDown_val cv depth f slotTriples8 B g.fIdx hne,
        hzero g.fIdx (hfid g (by simp [hg])), add_zero]
      exact hagree g (by simp [hg])
    rw [ih (fun g hg => hfid g (by simp [hg]))
      (fun g hg t ht j hj => htgt g (by simp [hg]) t ht j hj) _ hagree' n]
    rw [slotFoldDown_val cv depth f slotTriples8 B n hne]
    have hmap : slotTriples8.map (fun t =>
        match fineTarget cv depth f t with
        | some j => if j = n then B f.fIdx * fineWeight cv depth f t else 0
        | none => 0)
        = slotTriples8.map (fun t =>
        match fineTarget cv depth f t with
        | some j => if j = n then A f.fIdx * fineWeight cv depth f t else 0
        | none => 0) := by
      apply List.map_congr_left
      intro t _
      cases hj : fineTarget cv depth f t with
      | none => simp only [hj]
      | some j => simp only [hj, hagree f (by simp)]
    rw [hmap]
    ring

theorem upFold_val (cv : ℚ) (depth : ℕ) (fines : List FineNode)
    (c1 f0 : ℕ) (hsep : c1 ≤ f0)
    (hfid : ∀ f ∈ fines, f0 ≤ f.fIdx)
    (htgt : ∀ f ∈ fines, ∀ t ∈ slotTriples8, ∀ j,
      fineTarget cv depth f t = some j → j < c1)
    (A : ℕ → ℚ) :
    ∀ B : ℕ → ℚ, (∀ j, j < c1 → B j = A j) → ∀ n,
    (fines.foldl
        (fun D f =>
          slotTriples8.foldl
            (fun C t =>
              match fineTarget cv depth f t with
              | some j => upd C f.fIdx (C f.fIdx + C j * fineWeight cv depth f t)
              | none => C) D) B) n
      = B n + (fines.map (fun f =>
          if n = f.fIdx then
            (slotTriples8.map (fun t =>
              match fineTarget cv depth f t with
              | some j => A j * fineWeight cv depth f t
              | none => 0)).sum
          else 0)).sum := by
  induction fines with
  | nil => intro B _ n; simp
  | cons f fs ih =>
    intro B hagree n
    have hfmem : f0 ≤ f.fIdx := hfid f (by simp)
    have hne : ∀ t ∈ slotTriples8, ∀ j,
        fineTarget cv depth f t = some j → j ≠ f.fIdx := by
      intro t ht j hj
      have := htgt f (by simp) t ht j hj
      omega
    simp only [List.foldl_cons, List.map_cons, List.sum_cons]
    have hagree' : ∀ j, j < c1 →
        (slotTriples8.foldl
          (fun C t =>
            match fineTarget cv depth f t with
            | some j => upd C f.fIdx (C f.fIdx + C j * fineWeight cv depth f t)
            | none => C) B) j = A j := by
      intro j hj
      rw [slotFoldUp_val cv depth f slotTriples8 B j hne,
        if_neg (by omega), add_zero]
      exact hagree j hj
    rw [ih (fun g hg => hfid g (by simp [hg]))
      (fun g hg t ht j hj => htgt g (by simp [hg]) t ht j hj) _ hagree' n]
    rw [slotFoldUp_val cv depth f slotTriples8 B n hne]
    have hmap : slotTriples8.map (fun t =>
        match fineTarget cv depth f t with
        | some j => B j * fineWeight cv depth f t
        | none => 0)
        = slotTriples8.map (fun t =>
        match fineTarget cv depth f t with
        | some j => A j * fineWeight cv depth f t
        | none => 0) := by
      apply List.map_congr_left
      intro t ht
      cases hj : fineTarget cv depth f t with
      | none => simp only [hj]
      | some j =>
        simp only [hj, hagree j (htgt f (by simp) t ht j hj)]
    rw [hmap]
    ring


theorem list_sum_mul {σ : Type} (l : List σ) (g : σ → ℚ) (a : ℚ) :
    (l.map g).sum * a = (l.map (fun e => g e * a)).sum := by
  induction l with
  | nil => simp
  | cons e rest ih =>
    simp only [List.map_cons, List.sum_cons, add_mul, ih]

theorem mul_list_sum {σ : Type} (a : ℚ) (l : List σ) (g : σ → ℚ) :
    a * (l.map g).sum = (l.map (fun e => a * g e)).sum := by
  induction l with
  | nil => simp
  | cons e rest ih =>
    simp only [List.map_cons, List.sum_cons, mul_add, ih]

theorem sum_finset_list_swap {σ : Type} (s : Finset ℕ) (l : List σ)
    (g : ℕ → σ → ℚ) :
    (∑ n ∈ s, (l.map (g n)).sum) = (l.map (fun e => ∑ n ∈ s, g n e)).sum := by
  induction l with
  | nil => simp
  | cons e rest ih =>
    simp only [List.map_cons, List.sum_cons]
    rw [Finset.sum_add_distrib, ih]

/-- Inner product of two vectors over the sorted-index range `[a, b)` of one
depth. -/
def ipIco (a b : ℕ) (u v : ℕ → ℚ) : ℚ := ∑ n ∈ Finset.Ico a b, u n * v n

/-- The accumulation bodies of `DownSample` and `UpSample` (the code after
the early returns) are exact adjoints over the rationals: for any
constraint vector `c` supported on the fine (depth-`d+1`) index range and
any coefficient vector `x` supported on the coarse (depth-`d`) index range,
the coarse vector produced by the `DownSample` body pairs with `x` exactly
as `c` pairs with the fine vector produced by the `UpSample` body, both
bodies being driven by the same `UpSampleGeneric` weights.  `[c0, c1)` and
`[f0, f1)` are the coarse and fine sorted-index ranges (coarse indices
precede fine ones); each fine node's parent-level neighbours land in the
coarse range; `c` vanishes on the coarse range and `x` on the fine range,
so `downSampleBody c` on the coarse range and `upSampleBody x` on the fine
range are exactly the operator images. -/
theorem adjoint_of_bodies (cv : ℚ) (depth : ℕ)
    (fines : List FineNode) (c0 c1 f0 f1 : ℕ)
    (hsep : c1 ≤ f0)
    (hfid : ∀ f ∈ fines, f0 ≤ f.fIdx ∧ f.fIdx < f1)
    (htgt : ∀ f ∈ fines, ∀ t ∈ slotTriples8, ∀ j,
      fineTarget cv depth f t = some j → c0 ≤ j ∧ j < c1)
    (c x : ℕ → ℚ)
    (hc0 : ∀ j, c0 ≤ j → j < c1 → c j = 0)
    (hx0 : ∀ i, f0 ≤ i → i < f1 → x i = 0) :
    ipIco c0 c1 (downSampleBody cv depth fines c) x
      = ipIco f0 f1 c (upSampleBody cv depth fines x) := by
  have hds : downSampleBody cv depth fines c
      = fines.foldl
          (fun D f =>
            slotTriples8.foldl
              (fun C t =>
                match fineTarget cv depth f t with
                | some j => upd C j (C j + C f.fIdx * fineWeight cv depth f t)
                | none => C) D) c := rfl
  have hus : upSampleBody cv depth fines x
      = fines.foldl
          (fun D f =>
            slotTriples8.foldl
              (fun C t =>
                match fineTarget cv depth f t with
                | some j => upd C f.fIdx (C f.fIdx + C j * fineWeight cv depth f t)
                | none => C) D) x := rfl
  have hdval : ∀ n, downSampleBody cv depth fines c n
      = c n + (fines.map (fun f =>
          (slotTriples8.map (fun t =>
            match fineTarget cv depth f t with
            | some j => if j = n then c f.fIdx * fineWeight cv depth f t else 0
            | none => 0)).sum)).sum := by
    intro n
    rw [hds]
    exact downFold_val cv depth fines c1 f0 hsep (fun f hf => (hfid f hf).1)
      (fun f hf t ht j hj => (htgt f hf t ht j hj).2) c c (fun _ _ => rfl) n
  have huval : ∀ n, upSampleBody cv depth fines x n
      = x n + (fines.map (fun f =>
          if n = f.fIdx then
            (slotTriples8.map (fun t =>
              match fineTarget cv depth f t with
              | some j => x j * fineWeight cv depth f t
              | none => 0)).sum
          else 0)).sum := by
    intro n
    rw [hus]
    exact upFold_val cv depth fines c1 f0 hsep (fun f hf => (hfid f hf).1)
      (fun f hf t ht j hj => (htgt f hf t ht j hj).2) x x (fun _ _ => rfl) n
  have hlhs : ipIco c0 c1 (downSampleBody cv depth fines c) x
      = (fines.map (fun f =>
          (slotTriples8.map (fun t =>
            match fineTarget cv depth f t with
            | some j => c f.fIdx * fineWeight cv depth f t * x j
            | none => 0)).sum)).sum := by
    rw [ipIco]
    rw [Finset.sum_congr rfl (fun n hn => by
      rw [hdval n, hc0 n (Finset.mem_Ico.mp hn).1 (Finset.mem_Ico.mp hn).2,
        zero_add, list_sum_mul])]
    rw [sum_finset_list_swap]
    apply congrArg
    apply List.map_congr_left
    intro f hf
    rw [Finset.sum_congr rfl (fun n _ => list_sum_mul _ _ _)]
    rw [sum_finset_list_swap]
    apply congrArg
    apply List.map_congr_left
    intro t ht
    cases hj : fineTarget cv depth f t with
    | none => simp [hj]
    | some j =>
      obtain ⟨hj0, hj1⟩ := htgt f hf t ht j hj
      simp only [hj, ite_mul, zero_mul]
      rw [Finset.sum_ite_eq (Finset.Ico c0 c1) j
        (fun n => c f.fIdx * fineWeight cv depth f t * x n)]
      rw [if_pos (Finset.mem_Ico.mpr ⟨hj0, hj1⟩)]
  have hrhs : ipIco f0 f1 c (upSampleBody cv depth fines x)
      = (fines.map (fun f =>
          (slotTriples8.map (fun t =>
            match fineTarget cv depth f t with
            | some j => c f.fIdx * fineWeight cv depth f t * x j
            | none => 0)).sum)).sum := by
    rw [ipIco]
    rw [Finset.sum_congr rfl (fun n hn => by
      rw [huval n, hx0 n (Finset.mem_Ico.mp hn).1 (Finset.mem_Ico.mp hn).2,
        zero_add, mul_list_sum])]
    rw [sum_finset_list_swap]
    apply congrArg
    apply List.map_congr_left
    intro f hf
    obtain ⟨hf0, hf1⟩ := hfid f hf
    have hstep : ∀ n, c n * (if n = f.fIdx then
        (slotTriples8.map (fun t =>
          match fineTarget cv depth f t with
          | some j => x j * fineWeight cv depth f t
          | none => 0)).sum else 0)
        = (if n = f.fIdx then c n *
            (slotTriples8.map (fun t =>
              match fineTarget cv depth f t with
              | some j => x j * fineWeight cv depth f t
              | none => 0)).sum else 0) := by
      intro n
      rw [mul_ite, mul_zero]
    rw [Finset.sum_congr rfl (fun n _ => hstep n)]
    rw [Finset.sum_ite_eq' (Finset.Ico f0 f1) f.fIdx
      (fun n => c n * (slotTriples8.map (fun t =>
        match fineTarget cv depth f t with
        | some j => x j * fineWeight cv depth f t
        | none => 0)).sum)]
    rw [if_pos (Finset.mem_Ico.mpr ⟨hf0, hf1⟩)]
    rw [mul_list_sum]
    apply congrArg
    apply List.map_congr_left
    intro t _
    cases hj : fineTarget cv depth f t with
    | none => simp [hj]
    | some j =>
      simp only [hj]
      ring
  rw [hlhs, hrhs]

/-- C4 (corrected): `Octree::UpSample` and `Octree::DownSample` are exact
adjoints over the rationals at every depth step EXCEPT where their early
returns disagree.  `DownSample` returns immediately only when `depth == 0`,
while `UpSample` returns when `(boundaryType_ != BoundaryTypeNone &&
depth == 0) || (boundaryType_ == BoundaryTypeNone && depth <= 2)`; so for
`BoundaryTypeNone` at depths 1 and 2 `UpSample` no-ops while `DownSample`
accumulates and the operators are NOT adjoint (see the counterexample).
Outside that window — hypothesis `hdep`: under `BoundaryTypeNone` the depth
is 0 or at least 3 — adjointness holds: at depth 0 both operators return
immediately and both inner products vanish on the supports, and at any
other depth both bodies run and are driven by the same `UpSampleGeneric`
weights.  `[c0, c1)` and `[f0, f1)` are the coarse and fine sorted-index
ranges; each fine node's parent-level neighbours land in the coarse range;
`c` vanishes on the coarse range and `x` on the fine range. -/
theorem c4_adjoint_outside_upsample_noop (bt : BoundaryType) (depth : ℕ)
    (fines : List FineNode) (c0 c1 f0 f1 : ℕ)
    (hdep : bt = BoundaryType.bnone → depth = 0 ∨ 3 ≤ depth)
    (hsep : c1 ≤ f0)
    (hfid : ∀ f ∈ fines, f0 ≤ f.fIdx ∧ f.fIdx < f1)
    (htgt : ∀ f ∈ fines, ∀ t ∈ slotTriples8, ∀ j,
      fineTarget (cornerValue bt) depth f t = some j → c0 ≤ j ∧ j < c1)
    (c x : ℕ → ℚ)
    (hc0 : ∀ j, c0 ≤ j → j < c1 → c j = 0)
    (hx0 : ∀ i, f0 ≤ i → i < f1 → x i = 0) :
    ipIco c0 c1 (downSampleEmbed bt depth fines c) x
      = ipIco f0 f1 c (upSampleEmbed bt depth fines x) := by
  by_cases hd : depth = 0
  · subst hd
    have hus : upSampleEmbed bt 0 fines x = x := by
      unfold upSampleEmbed
      rw [if_pos]
      cases bt with
      | bnone => exact Or.inr ⟨rfl, Nat.zero_le 2⟩
      | dirichlet => exact Or.inl ⟨by decide, rfl⟩
      | neumann => exact Or.inl ⟨by decide, rfl⟩
    have hds : downSampleEmbed bt 0 fines c = c := by
      unfold downSampleEmbed
      rw [if_pos rfl]
    have h1 : ∑ n ∈ Finset.Ico c0 c1, c n * x n = 0 :=
      Finset.sum_eq_zero (fun n hn => by
        rw [hc0 n (Finset.mem_Ico.mp hn).1 (Finset.mem_Ico.mp hn).2, zero_mul])
    have h2 : ∑ n ∈ Finset.Ico f0 f1, c n * x n = 0 :=
      Finset.sum_eq_zero (fun n hn => by
        rw [hx0 n (Finset.mem_Ico.mp hn).1 (Finset.mem_Ico.mp hn).2, mul_zero])
    rw [hds, hus, ipIco, ipIco, h1, h2]
  · have hg : ¬((bt ≠ BoundaryType.bnone ∧ depth = 0) ∨
        (bt = BoundaryType.bnone ∧ depth ≤ 2)) := by
      rintro (⟨-, h0⟩ | ⟨hb, h2⟩)
      · exact hd h0
      · rcases hdep hb with h | h
        · exact hd h
        · omega
    have hds : downSampleEmbed bt depth fines c
        = downSampleBody (cornerValue bt) depth fines c := by
      unfold downSampleEmbed
      rw [if_neg hd]
    have hus : upSampleEmbed bt depth fines x
        = upSampleBody (cornerValue bt) depth fines x := by
      unfold upSampleEmbed
      rw [if_neg hg]
    rw [hds, hus]
    exact adjoint_of_bodies (cornerValue bt) depth fines c0 c1 f0 f1 hsep
      hfid htgt c x hc0 hx0

/-- Counterexample to the original C4 claim: under `BoundaryTypeNone` at
depth 2 (a regime `SetLaplacianConstraints` does exercise: it calls
`DownSample(2)` and `UpSample(2)` when `boundaryType_ == BoundaryTypeNone`),
`UpSample` early-returns while `DownSample` accumulates, so the inner
products differ: one fine node (sorted index 1, offsets 0) whose only
present parent-level neighbour is coarse node 0 gives
`⟨DownSample c, x⟩ = 5 * (3/4)^3 * 7 = 945/64` but `⟨c, UpSample x⟩ = 0`. -/
theorem c4_counterexample :
    ipIco 0 1 (downSampleEmbed BoundaryType.bnone 2
        [⟨1, 0, 0, 0, fun a b c => if a = 1 ∧ b = 1 ∧ c = 1 then some 0 else none⟩]
        (fun n => if n = 1 then (5 : ℚ) else 0))
        (fun n => if n = 0 then (7 : ℚ) else 0)
      ≠ ipIco 1 2 (fun n => if n = 1 then (5 : ℚ) else 0)
          (upSampleEmbed BoundaryType.bnone 2
            [⟨1, 0, 0, 0, fun a b c => if a = 1 ∧ b = 1 ∧ c = 1 then some 0 else none⟩]
            (fun n => if n = 0 then (7 : ℚ) else 0)) := by
  have hico1 : Finset.Ico 0 1 = ({0} : Finset ℕ) := by decide
  have hico2 : Finset.Ico 1 2 = ({1} : Finset ℕ) := by decide
  rw [ipIco, ipIco, hico1, hico2, Finset.sum_singleton, Finset.sum_singleton]
  norm_num [downSampleEmbed, upSampleEmbed, downSampleBody, upSampleGeneric,
    slotTriples8, fineTarget, fineWeight, upSampleData, usVal, cornerValue,
    upd]

/-- Witness for C4: one fine node (sorted index 1, offsets 0) whose only
present parent-level neighbour is coarse node 0; Neumann boundary (corner
value 1), depth 1 — the `UpSample` early return does not fire there. -/
theorem c4_witness :
    ((BoundaryType.neumann = BoundaryType.bnone → (1 : ℕ) = 0 ∨ 3 ≤ 1) ∧
      (1 : ℕ) ≤ 1 ∧
      (∀ f ∈ [(⟨1, 0, 0, 0,
          fun a b c => if a = 1 ∧ b = 1 ∧ c = 1 then some 0 else none⟩ : FineNode)],
        1 ≤ f.fIdx ∧ f.fIdx < 3) ∧
      (∀ f ∈ [(⟨1, 0, 0, 0,
          fun a b c => if a = 1 ∧ b = 1 ∧ c = 1 then some 0 else none⟩ : FineNode)],
        ∀ t ∈ slotTriples8, ∀ j,
          fineTarget (cornerValue BoundaryType.neumann) 1 f t = some j →
            0 ≤ j ∧ j < 1) ∧
      (∀ j : ℕ, 0 ≤ j → j < 1 → (fun n => if n = 1 then (5 : ℚ) else 0) j = 0) ∧
      (∀ i : ℕ, 1 ≤ i → i < 3 → (fun n => if n = 0 then (7 : ℚ) else 0) i = 0)) ∧
      ipIco 0 1 (downSampleEmbed BoundaryType.neumann 1
          [⟨1, 0, 0, 0, fun a b c => if a = 1 ∧ b = 1 ∧ c = 1 then some 0 else none⟩]
          (fun n => if n = 1 then (5 : ℚ) else 0))
          (fun n => if n = 0 then (7 : ℚ) else 0)
        = ipIco 1 3 (fun n => if n = 1 then (5 : ℚ) else 0)
            (upSampleEmbed BoundaryType.neumann 1
              [⟨1, 0, 0, 0, fun a b c => if a = 1 ∧ b = 1 ∧ c = 1 then some 0 else none⟩]
              (fun n => if n = 0 then (7 : ℚ) else 0)) := by
  have htgt : ∀ f ∈ [(⟨1, 0, 0, 0,
      fun a b c => if a = 1 ∧ b = 1 ∧ c = 1 then some 0 else none⟩ : FineNode)],
      ∀ t ∈ slotTriples8, ∀ j,
        fineTarget (cornerValue BoundaryType.neumann) 1 f t = some j →
          0 ≤ j ∧ j < 1 := by
    intro f hf t ht j hj
    simp only [List.mem_singleton] at hf
    subst hf
    simp only [fineTarget, upSampleData, cornerValue] at hj
    norm_num at hj
    omega
  refine ⟨⟨fun h => absurd h (by decide), le_refl 1, ?_, htgt, ?_, ?_⟩, ?_⟩
  · intro f hf
    simp only [List.mem_singleton] at hf
    subst hf
    constructor <;> norm_num
  · intro j h1 h2
    have : j = 0 := by omega
    subst this
    norm_num
  · intro i h1 h2
    have : i ≠ 0 := by omega
    simp [this]
  · exact c4_adjoint_outside_upsample_noop BoundaryType.neumann 1
      [⟨1, 0, 0, 0, fun a b c => if a = 1 ∧ b = 1 ∧ c = 1 then some 0 else none⟩]
      0 1 1 3 (fun h => absurd h (by decide)) (le_refl 1)
      (by intro f hf
          simp only [List.mem_singleton] at hf
          subst hf
          constructor <;> norm_num)
      htgt
      (fun n => if n = 1 then (5 : ℚ) else 0)
      (fun n => if n = 0 then (7 : ℚ) else 0)
      (by intro j h1 h2
          have : j = 0 := by omega
          subst this
          norm_num)
      (by intro i h1 h2
          have : i ≠ 0 := by omega
          simp [this])


/-! ### Sorted tree nodes (`SortedTreeNodes::set`,
`Octree::GetRestrictedFixedDepthLaplacian`)

`set(root)` enumerates the octree level by level, using the `treeNodes`
array itself as the BFS queue: `treeNodes[0] = &root`, and while sweeping
the depth-`d` range every branch node appends its 8 children in order, with
`nodeCount[d]` recording where the depth-`d` range starts.  Finally every
placed node gets `nodeIndex = position`.  Nodes are identified by their path
from the root (the pointer analogue); `levelP` is the list of
(path, subtree) pairs of one depth in exactly the order the code produces,
`treeNodesP` their concatenation over depths `0..D-1`, and `nodeIndexOf`
the final index assignment (`-1` for paths never placed, matching the reset
loop).  `GetRestrictedFixedDepthLaplacian` temporarily remaps
`treeNodes[entries[i]]->nodeIndex = i` and restores
`treeNodes[entries[i]]->nodeIndex = entries[i]` before returning
(`remapIdx` / `restoreIdx` over index maps keyed by sorted position). -/

inductive OTree where
  | leaf : OTree
  | branch : List OTree → OTree

def childrenOf : OTree → List OTree
  | .leaf => []
  | .branch cs => cs

def childExpand (q : List ℕ × OTree) : List (List ℕ × OTree) :=
  (childrenOf q.2).enum.map (fun r => (q.1 ++ [r.1], r.2))

def levelP (t : OTree) : ℕ → List (List ℕ × OTree)
  | 0 => [([], t)]
  | d + 1 => (levelP t d).flatMap childExpand

theorem levelP_path_length (t : OTree) (d : ℕ) :
    ∀ q ∈ levelP t d, q.1.length = d := by
  induction d with
  | zero => intro q hq; simp [levelP] at hq; simp [hq]
  | succ d ih =>
    intro q hq
    rw [levelP, List.mem_flatMap] at hq
    obtain ⟨q', hq', hmem⟩ := hq
    rw [childExpand, List.mem_map] at hmem
    obtain ⟨r, _, rfl⟩ := hmem
    simp [ih q' hq']

theorem childExpand_fst (q : List ℕ × OTree) :
    (childExpand q).map Prod.fst
      = (List.range (childrenOf q.2).length).map (fun c => q.1 ++ [c]) := by
  rw [childExpand, List.map_map, ← List.enum_map_fst (childrenOf q.2),
    List.map_map]
  rfl

theorem levelP_fst_nodup (t : OTree) (d : ℕ) :
    ((levelP t d).map Prod.fst).Nodup := by
  induction d with
  | zero => simp [levelP]
  | succ d ih =>
    rw [levelP, List.map_flatMap, List.nodup_flatMap]
    constructor
    · intro q _
      rw [childExpand_fst]
      exact List.Nodup.map
        (fun a b hab => by simpa using List.append_cancel_left hab)
        (List.nodup_range _)
    · have hpw : (levelP t d).Pairwise (fun a b => a.1 ≠ b.1) :=
        List.pairwise_map.mp ih
      refine hpw.imp_of_mem ?_
      intro a b ha hb hne
      intro x hxa hxb
      simp only [] at hxa hxb
      rw [childExpand_fst, List.mem_map] at hxa hxb
      obtain ⟨c, _, rfl⟩ := hxa
      obtain ⟨c', _, he⟩ := hxb
      have hlen : a.1.length = b.1.length := by
        rw [levelP_path_length t d a ha, levelP_path_length t d b hb]
      have := List.append_inj he.symm hlen
      exact hne this.1



def treeNodesP (t : OTree) (D : ℕ) : List (List ℕ × OTree) :=
  (List.range D).flatMap (levelP t)

def nodeCount (t : OTree) (d : ℕ) : ℕ :=
  ((List.range d).map (fun e => (levelP t e).length)).sum

def nodeIndexOf (t : OTree) (D : ℕ) (p : List ℕ) : ℤ :=
  match (treeNodesP t D).findIdx? (fun q => q.1 = p) with
  | some i => (i : ℤ)
  | none => -1

theorem treeNodesP_fst_nodup (t : OTree) (D : ℕ) :
    ((treeNodesP t D).map Prod.fst).Nodup := by
  rw [treeNodesP, List.map_flatMap, List.nodup_flatMap]
  constructor
  · intro d _
    exact levelP_fst_nodup t d
  · refine (List.pairwise_lt_range D).imp_of_mem ?_
    intro a b _ _ hab x hxa hxb
    simp only [] at hxa hxb
    rw [List.mem_map] at hxa hxb
    obtain ⟨q, hq, rfl⟩ := hxa
    obtain ⟨q', hq', he⟩ := hxb
    have h1 := levelP_path_length t a q hq
    have h2 := levelP_path_length t b q' hq'
    rw [he] at h2
    omega

theorem findIdx_fst_get {α : Type} (l : List (List ℕ × α))
    (hnd : (l.map Prod.fst).Nodup) (i : ℕ) (h : i < l.length) :
    l.findIdx? (fun q => q.1 = (l.get ⟨i, h⟩).1) = some i := by
  induction l generalizing i with
  | nil => simp at h
  | cons q rest ih =>
    rw [List.map_cons, List.nodup_cons] at hnd
    cases i with
    | zero =>
      rw [List.findIdx?_cons]
      simp
    | succ i =>
      rw [List.findIdx?_cons]
      have hget : ((q :: rest).get ⟨i + 1, h⟩) = rest.get ⟨i, by simpa using h⟩ := rfl
      rw [hget]
      have hne : ¬ (q.1 = (rest.get ⟨i, by simpa using h⟩).1) := by
        intro he
        exact hnd.1 (he ▸ List.mem_map_of_mem Prod.fst (rest.get_mem _ _))
      rw [if_neg (by simpa using hne)]
      rw [List.findIdx?_succ, ih hnd.2 i (by simpa using h)]
      rfl

theorem c1a_test (t : OTree) (D : ℕ) (i : ℕ) (h : i < (treeNodesP t D).length) :
    nodeIndexOf t D ((treeNodesP t D).get ⟨i, h⟩).1 = (i : ℤ) := by
  rw [nodeIndexOf, findIdx_fst_get _ (treeNodesP_fst_nodup t D) i h]



inductive WF8 : OTree → Prop where
  | leaf : WF8 .leaf
  | branch : ∀ cs : List OTree, cs.length = 8 → (∀ c ∈ cs, WF8 c) →
      WF8 (.branch cs)

theorem levelP_wf (t : OTree) (hwf : WF8 t) (d : ℕ) :
    ∀ q ∈ levelP t d, WF8 q.2 := by
  induction d with
  | zero => intro q hq; simp [levelP] at hq; simp [hq, hwf]
  | succ d ih =>
    intro q hq
    rw [levelP, List.mem_flatMap] at hq
    obtain ⟨q', hq', hmem⟩ := hq
    rw [childExpand, List.mem_map] at hmem
    obtain ⟨r, hr, rfl⟩ := hmem
    have hwf2 := ih q' hq'
    have hrmem : r.2 ∈ childrenOf q'.2 := List.snd_mem_of_mem_enum hr
    cases hq2 : q'.2 with
    | leaf => rw [hq2] at hrmem; simp [childrenOf] at hrmem
    | branch cs =>
      rw [hq2] at hwf2 hrmem
      cases hwf2 with
      | branch cs hlen hall => exact hall r.2 (by simpa [childrenOf] using hrmem)

theorem nodeCount_succ (t : OTree) (d : ℕ) :
    nodeCount t (d + 1) = nodeCount t d + (levelP t d).length := by
  rw [nodeCount, nodeCount, List.range_succ, List.map_append, List.sum_append]
  simp

theorem length_flatMap_levels (t : OTree) (l : List ℕ) :
    (l.flatMap (levelP t)).length = (l.map (fun e => (levelP t e).length)).sum := by
  rw [List.length_flatMap]
  rfl

theorem treeNodes_split (t : OTree) (D d : ℕ) (hd : d ≤ D) :
    treeNodesP t D = (List.range d).flatMap (levelP t)
      ++ (List.range' d (D - d)).flatMap (levelP t) := by
  rw [treeNodesP, ← List.flatMap_append]
  congr 1
  have h := List.range'_append 0 d (D - d) 1
  simp only [Nat.zero_add, Nat.one_mul] at h
  simp only [List.range_eq_range']
  rw [h]
  congr 1
  omega

theorem treeNodes_pos (t : OTree) (D d : ℕ) (hd : d < D) (j : ℕ)
    (hj : j < (levelP t d).length) :
    (treeNodesP t D)[nodeCount t d + j]? = (levelP t d)[j]? := by
  rw [treeNodes_split t D d (le_of_lt hd)]
  have hlen : ((List.range d).flatMap (levelP t)).length = nodeCount t d := by
    rw [length_flatMap_levels, nodeCount]
  rw [List.getElem?_append_right (by omega)]
  rw [hlen]
  have : nodeCount t d + j - nodeCount t d = j := by omega
  rw [this]
  have hDd : D - d = (D - d - 1) + 1 := by omega
  rw [hDd, List.range'_succ, List.flatMap_cons]
  rw [List.getElem?_append, if_pos hj]



theorem level_succ_decomp (t : OTree) (d j : ℕ) (hj : j < (levelP t d).length) :
    levelP t (d + 1)
      = ((levelP t d).take j).flatMap childExpand
        ++ (childExpand ((levelP t d).get ⟨j, hj⟩)
          ++ ((levelP t d).drop (j + 1)).flatMap childExpand) := by
  conv_lhs => rw [levelP, ← List.take_append_drop j (levelP t d),
    List.drop_eq_getElem_cons hj]
  rw [List.flatMap_append, List.flatMap_cons]
  rfl

theorem childExpand_length (q : List ℕ × OTree) :
    (childExpand q).length = (childrenOf q.2).length := by
  rw [childExpand, List.length_map, List.enum_length]

theorem childExpand_getElem (q : List ℕ × OTree) (c : ℕ) (s : OTree)
    (hs : (childrenOf q.2)[c]? = some s) :
    (childExpand q)[c]? = some (q.1 ++ [c], s) := by
  rw [childExpand, List.getElem?_map, List.getElem?_enum, hs]
  rfl

theorem c1b_children_span (t : OTree) (D : ℕ) (hwf : WF8 t) (d i : ℕ)
    (p : List ℕ) (cs : List OTree)
    (hD : d + 2 ≤ D) (hlo : nodeCount t d ≤ i) (hhi : i < nodeCount t (d + 1))
    (hget : (treeNodesP t D)[i]? = some (p, OTree.branch cs)) :
    cs.length = 8 ∧ ∃ k, nodeCount t (d + 1) ≤ k ∧ k + 8 ≤ nodeCount t (d + 2) ∧
      ∀ c s, cs[c]? = some s → (treeNodesP t D)[k + c]? = some (p ++ [c], s) := by
  have hjlen : i - nodeCount t d < (levelP t d).length := by
    have := nodeCount_succ t d
    omega
  have hpos := treeNodes_pos t D d (by omega) (i - nodeCount t d) hjlen
  rw [show nodeCount t d + (i - nodeCount t d) = i from by omega] at hpos
  rw [hget] at hpos
  have hq : (levelP t d).get ⟨i - nodeCount t d, hjlen⟩ = (p, OTree.branch cs) := by
    have h2 := List.getElem?_eq_getElem hjlen
    rw [← hpos] at h2
    exact (Option.some_injective _ h2.symm)
  have hqmem : (p, OTree.branch cs) ∈ levelP t d := hq ▸ (levelP t d).get_mem _ _
  have hw : WF8 (OTree.branch cs) := levelP_wf t hwf d (p, OTree.branch cs) hqmem
  have hcs8 : cs.length = 8 := by
    cases hw with
    | branch cs hlen hall => exact hlen
  refine ⟨hcs8, ?_⟩
  have hdec := level_succ_decomp t d (i - nodeCount t d) hjlen
  rw [hq] at hdec
  have hchl : (childExpand (p, OTree.branch cs)).length = 8 := by
    rw [childExpand_length]
    simpa [childrenOf] using hcs8
  refine ⟨nodeCount t (d + 1)
    + (((levelP t d).take (i - nodeCount t d)).flatMap childExpand).length,
    by omega, ?_, ?_⟩
  · have hlev : (levelP t (d + 1)).length
        = (((levelP t d).take (i - nodeCount t d)).flatMap childExpand).length
          + (8 + (((levelP t d).drop (i - nodeCount t d + 1)).flatMap childExpand).length) := by
      rw [hdec]
      simp [hchl]
    have h2 := nodeCount_succ t (d + 1)
    have h22 : nodeCount t (d + 1 + 1) = nodeCount t (d + 2) := by norm_num
    omega
  · intro c s hcget
    have hc8 : c < 8 := by
      obtain ⟨hlt, _⟩ := List.getElem?_eq_some_iff.mp hcget
      omega
    have hoffc : (((levelP t d).take (i - nodeCount t d)).flatMap childExpand).length + c
        < (levelP t (d + 1)).length := by
      rw [hdec]
      simp only [List.length_append, hchl]
      omega
    rw [show nodeCount t (d + 1)
        + (((levelP t d).take (i - nodeCount t d)).flatMap childExpand).length + c
        = nodeCount t (d + 1)
          + ((((levelP t d).take (i - nodeCount t d)).flatMap childExpand).length + c)
      from by omega]
    rw [treeNodes_pos t D (d + 1) (by omega) _ hoffc]
    rw [hdec]
    rw [List.getElem?_append_right (by omega)]
    rw [show (((levelP t d).take (i - nodeCount t d)).flatMap childExpand).length + c
        - (((levelP t d).take (i - nodeCount t d)).flatMap childExpand).length = c
      from by omega]
    rw [List.getElem?_append, if_pos (by omega)]
    exact childExpand_getElem (p, OTree.branch cs) c s (by simpa [childrenOf] using hcget)



def updI (f : ℕ → ℤ) (i : ℕ) (v : ℤ) : ℕ → ℤ := fun j => if j = i then v else f j

def remapIdx (f : ℕ → ℤ) (entries : List ℕ) : ℕ → ℤ :=
  entries.enum.foldl (fun g r => updI g r.2 (r.1 : ℤ)) f

def restoreIdx (g : ℕ → ℤ) (entries : List ℕ) : ℕ → ℤ :=
  entries.foldl (fun g e => updI g e (e : ℤ)) g

theorem restoreIdx_val (entries : List ℕ) :
    ∀ (g : ℕ → ℤ) (j : ℕ),
      restoreIdx g entries j = if j ∈ entries then (j : ℤ) else g j := by
  induction entries with
  | nil => intro g j; simp [restoreIdx]
  | cons e es ih =>
    intro g j
    rw [restoreIdx, List.foldl_cons]
    have := ih (updI g e (e : ℤ)) j
    rw [restoreIdx] at this
    rw [this]
    by_cases hj : j ∈ es
    · simp [hj]
    · by_cases hje : j = e
      · subst hje
        simp [hj, updI]
      · simp [hj, hje, updI]

theorem remapIdx_not_mem (l : List (ℕ × ℕ)) (j : ℕ) (hj : ∀ r ∈ l, r.2 ≠ j) :
    ∀ f : ℕ → ℤ, (l.foldl (fun g r => updI g r.2 (r.1 : ℤ)) f) j = f j := by
  induction l with
  | nil => intro f; rfl
  | cons r rs ih =>
    intro f
    rw [List.foldl_cons, ih (fun r' hr' => hj r' (by simp [hr'])) _]
    simp only [updI]
    exact if_neg (fun hh => hj r (by simp) hh.symm)

theorem remap_restore_id (f : ℕ → ℤ) (entries : List ℕ)
    (hid : ∀ e ∈ entries, f e = (e : ℤ)) (j : ℕ) :
    restoreIdx (remapIdx f entries) entries j = f j := by
  rw [restoreIdx_val]
  by_cases hj : j ∈ entries
  · rw [if_pos hj, hid j hj]
  · rw [if_neg hj, remapIdx]
    exact remapIdx_not_mem entries.enum j
      (fun r hr hh => hj (hh ▸ List.snd_mem_of_mem_enum hr)) f



/-- C1: after `SortedTreeNodes::set(root)`, (i) every stored node satisfies
`treeNodes[i]->nodeData.nodeIndex == i` for `i ∈ [0, nodeCount[maxDepth])`;
(ii) every non-leaf `treeNodes[i]` at depth `d` has its eight children in a
contiguous 8-slot span of `treeNodes[]` inside the depth-`(d+1)` range
`[nodeCount[d+1], nodeCount[d+2])`; and (iii) the temporary `nodeIndex`
remap of `GetRestrictedFixedDepthLaplacian` is undone by its restore loop:
starting from any index assignment satisfying the invariant on the remapped
entries, remap-then-restore is the identity, so the invariant holds between
public operations. -/
theorem c1_sorted_index_and_children_span (t : OTree) (D : ℕ) (hwf : WF8 t) :
    (∀ i (h : i < (treeNodesP t D).length),
      nodeIndexOf t D ((treeNodesP t D).get ⟨i, h⟩).1 = (i : ℤ)) ∧
    (∀ d i p cs, d + 2 ≤ D → nodeCount t d ≤ i → i < nodeCount t (d + 1) →
      (treeNodesP t D)[i]? = some (p, OTree.branch cs) →
      cs.length = 8 ∧ ∃ k, nodeCount t (d + 1) ≤ k ∧ k + 8 ≤ nodeCount t (d + 2) ∧
        ∀ c s, cs[c]? = some s → (treeNodesP t D)[k + c]? = some (p ++ [c], s)) ∧
    (∀ (f : ℕ → ℤ) (entries : List ℕ), (∀ e ∈ entries, f e = (e : ℤ)) →
      ∀ j, restoreIdx (remapIdx f entries) entries j = f j) :=
  ⟨fun i h => by
      rw [nodeIndexOf, findIdx_fst_get _ (treeNodesP_fst_nodup t D) i h],
    fun d i p cs hD hlo hhi hget =>
      c1b_children_span t D hwf d i p cs hD hlo hhi hget,
    fun f entries hid j => remap_restore_id f entries hid j⟩

/-- Witness for C1: the one-branch octree with 8 leaf children, `D = 2`. -/
theorem c1_witness :
    WF8 (OTree.branch (List.replicate 8 OTree.leaf)) ∧
      ((∀ i (h : i < (treeNodesP (OTree.branch (List.replicate 8 OTree.leaf)) 2).length),
        nodeIndexOf (OTree.branch (List.replicate 8 OTree.leaf)) 2
          ((treeNodesP (OTree.branch (List.replicate 8 OTree.leaf)) 2).get ⟨i, h⟩).1 = (i : ℤ)) ∧
      (∀ d i p cs, d + 2 ≤ 2 →
        nodeCount (OTree.branch (List.replicate 8 OTree.leaf)) d ≤ i →
        i < nodeCount (OTree.branch (List.replicate 8 OTree.leaf)) (d + 1) →
        (treeNodesP (OTree.branch (List.replicate 8 OTree.leaf)) 2)[i]? = some (p, OTree.branch cs) →
        cs.length = 8 ∧ ∃ k,
          nodeCount (OTree.branch (List.replicate 8 OTree.leaf)) (d + 1) ≤ k ∧
          k + 8 ≤ nodeCount (OTree.branch (List.replicate 8 OTree.leaf)) (d + 2) ∧
          ∀ c s, cs[c]? = some s →
            (treeNodesP (OTree.branch (List.replicate 8 OTree.leaf)) 2)[k + c]? = some (p ++ [c], s)) ∧
      (∀ (f : ℕ → ℤ) (entries : List ℕ), (∀ e ∈ entries, f e = (e : ℤ)) →
        ∀ j, restoreIdx (remapIdx f entries) entries j = f j)) :=
  ⟨WF8.branch (List.replicate 8 OTree.leaf) (by simp)
      (fun c hc => by rw [List.eq_of_mem_replicate hc]; exact WF8.leaf),
    c1_sorted_index_and_children_span (OTree.branch (List.replicate 8 OTree.leaf)) 2
      (WF8.branch (List.replicate 8 OTree.leaf) (by simp)
        (fun c hc => by rw [List.eq_of_mem_replicate hc]; exact WF8.leaf))⟩

end PoissonRecon
